import Mathlib

/-!
Verification of the stage-descriptor string codec and configuration assembly
in `runtime-modeling/models.py` (class `MnasNetDecoder`, functions
`mnasnet_backbone` and `build_mnasnet_model`).

The Python code is shallowly embedded: strings become `String`/`List Char`,
Python `dict` becomes an insertion-ordered association list with
overwrite-on-insert, Python exceptions become `Except` errors, and Python
floats become exact rationals `ℚ` (every IEEE double is a rational with a
finite decimal expansion).  `'%s' % f` on a float is Python 2 `str(f)`,
i.e. `'%.12g'`: correct rounding to 12 significant digits with trailing
zeros stripped, modelled exactly by `pyStr`; values needing more digits are
misrendered and drift on re-decoding (see the C1/C6 counterexamples).  The
code targets Python 2 (TF 1.x era, `from __future__ import` headers), so
`None > 0` evaluates to `False` rather than raising.
-/

namespace SPNas

/-! ## Characters and decimal digits -/

/-- The decimal digit value of a character, `none` when the character is not
one of `0`-`9`.  Models both Python's `\d` character class (over ASCII input)
and `int` applied to a single-character string. -/
def charToDigit? (c : Char) : Option Nat :=
  if c = '0' then some 0
  else if c = '1' then some 1
  else if c = '2' then some 2
  else if c = '3' then some 3
  else if c = '4' then some 4
  else if c = '5' then some 5
  else if c = '6' then some 6
  else if c = '7' then some 7
  else if c = '8' then some 8
  else if c = '9' then some 9
  else none

/-- Is the character a decimal digit `0`-`9`? -/
def isDigitB (c : Char) : Bool := (charToDigit? c).isSome

/-- The character for a decimal digit. -/
def digitChar (d : Nat) : Char :=
  match d with
  | 0 => '0' | 1 => '1' | 2 => '2' | 3 => '3' | 4 => '4'
  | 5 => '5' | 6 => '6' | 7 => '7' | 8 => '8' | 9 => '9'
  | _ => '*'

/-- Fuel-driven digit expansion (structural recursion so that concrete
instances evaluate inside the kernel); `natDigits` supplies enough fuel. -/
def natDigitsAux : Nat → Nat → List Char
  | 0, _ => []
  | fuel + 1, n =>
    if n < 10 then [digitChar n]
    else natDigitsAux fuel (n / 10) ++ [digitChar (n % 10)]

/-- The decimal digit characters of a natural number, most significant first.
Models Python's `'%d' % n` / `str(n)` for nonnegative `n`. -/
def natDigits (n : Nat) : List Char := natDigitsAux (n + 1) n

/-- The numeric value of a digit string (non-digits count as 0; guarded by
`allDigitsB` at use sites). -/
def natVal (l : List Char) : Nat :=
  l.foldl (fun a c => 10 * a + ((charToDigit? c).getD 0)) 0

/-- Are all characters decimal digits? -/
def allDigitsB (l : List Char) : Bool := l.all isDigitB

/-- Python `int(s)` on the value part of a token: the string must be a
nonempty run of decimal digits (the values produced by the token splitter
always begin with a digit). -/
def parseNatC (l : List Char) : Option Nat :=
  if l.isEmpty then none
  else if allDigitsB l then some (natVal l) else none

/-! ## Splitting and joining on a separator character -/

/-- Python `str.split(sep)` for a single-character separator: splits into the
(possibly empty) runs between separators; the empty string yields `[[]]`. -/
def splitOnCh (sep : Char) : List Char → List (List Char)
  | [] => [[]]
  | c :: rest =>
    if c = sep then [] :: splitOnCh sep rest
    else
      match splitOnCh sep rest with
      | [] => [[c]]
      | t :: ts => (c :: t) :: ts

/-- Python `sep.join(parts)` for a single-character separator. -/
def joinWith (sep : Char) : List (List Char) → List Char
  | [] => []
  | [a] => a
  | a :: rest => a ++ sep :: joinWith sep rest

/-! ## Substring containment (Python `in` on strings) -/

/-- Does `l` begin with `pat`? -/
def beginsWith : List Char → List Char → Bool
  | [], _ => true
  | _ :: _, [] => false
  | p :: ps, c :: cs => if p = c then beginsWith ps cs else false

/-- Python `pat in l` on strings: `pat` occurs contiguously anywhere in `l`. -/
def hasSub : List Char → List Char → Bool
  | [], pat => beginsWith pat []
  | c :: rest, pat => beginsWith pat (c :: rest) || hasSub rest pat

/-! ## Decimal rendering and parsing of floats

A Python float is a dyadic rational.  Python 2's `'%s' % f` calls `str(f)`,
which formats the double with `'%.12g'`: the value is correctly rounded to
12 significant digits, trailing zeros of the fraction are stripped, and an
integral result is printed with a trailing `.0`.  Ratios needing more than
12 significant digits are therefore misrendered and drift on re-decoding
(e.g. the double nearest 1/3 prints as `0.333333333333`).  `%g` switches to
exponent notation below `1e-4`; this printer keeps the plain decimal form
there, which parses back to the same value, so the round-trip claims are
unaffected on their domain and such ratios are not exercised by the
specification. -/

/-- Pad a digit string on the left with `'0'` to length `k`. -/
def padZeros (k : Nat) (l : List Char) : List Char :=
  List.replicate (k - l.length) '0' ++ l

/-- Round `N / D` to the nearest integer, ties to even (the correct
rounding the C library applies when `%g` converts a double to decimal). -/
def rndHalfEven (N D : Nat) : Nat :=
  let fl := N / D
  let r2 := 2 * (N % D)
  if r2 < D then fl
  else if D < r2 then fl + 1
  else if fl % 2 = 0 then fl else fl + 1

/-- Factor out trailing decimal zeros: `stripZeros fuel n = (m, t)` with
`n = m * 10 ^ t` (`t` maximal whenever the fuel suffices, which it does for
every value `pyStr` produces). -/
def stripZeros : Nat → Nat → Nat × Nat
  | 0, n => (n, 0)
  | fuel + 1, n =>
    if n ≠ 0 ∧ n % 10 = 0 then
      let r := stripZeros fuel (n / 10)
      (r.1, r.2 + 1)
    else (n, 0)

/-- Python 2 `str()` on a positive float, i.e. `'%.12g'` plus the trailing
`.0` on integral results: `p` is the position of the first significant
digit (smallest `p` with `q * 10 ^ p ≥ 1`), the value is rounded to the 12
significant digits ending at decimal place `p + 11`, and trailing zeros are
stripped before printing.  Written with integer arithmetic only so that
concrete instances evaluate inside the kernel. -/
def pyStr (q : ℚ) : List Char :=
  match (List.range 1101).find? (fun p => q.den ≤ q.num.toNat * 10 ^ p) with
  | some p =>
    let M := rndHalfEven (q.num.toNat * 10 ^ (p + 11)) q.den
    let s := stripZeros 40 M
    let k := p + 11 - s.2
    if k = 0 then natDigits s.1 ++ ['.', '0']
    else natDigits (s.1 / 10 ^ k) ++ '.' :: padZeros k (natDigits (s.1 % 10 ^ k))
  | none => ['?']

/-- Python `float(s)` restricted to the plain decimal forms `digits`,
`digits.digits`, `digits.`, `.digits` (the token splitter guarantees the
value begins with a digit; exponent forms are never produced by encoding).
The value `ip.fr` is the exact rational `(ip * 10 ^ |fr| + fr) / 10 ^ |fr|`. -/
def parseFloatC (l : List Char) : Option ℚ :=
  match splitOnCh '.' l with
  | [a] => if a.isEmpty then none
           else if allDigitsB a then some (mkRat (natVal a) 1) else none
  | [a, b] =>
    if a.isEmpty && b.isEmpty then none
    else if allDigitsB a && allDigitsB b then
      some (mkRat (natVal a * 10 ^ b.length + natVal b) (10 ^ b.length))
    else none
  | _ => none

/-! ## The token splitter (`re.split(r'(\d.*)', op)`)

The regex splits a token at the first digit: the key is the run of
characters before the first digit and the value runs from the first digit to
the end of the token.  Tokens without a digit (the `noskip` flag) yield no
key/value pair. -/

/-- Split a token into (key, value) at the first decimal digit;
`none` when the token has no digit. -/
def splitKV : List Char → Option (List Char × List Char)
  | [] => none
  | c :: rest =>
    if isDigitB c then some ([], c :: rest)
    else
      match splitKV rest with
      | some (k, v) => some (c :: k, v)
      | none => none

/-! ## The options dictionary (`options[key] = value`) -/

/-- Insert into an association list, overwriting an existing binding of the
same key in place (Python `dict` assignment). -/
def insertKV : List (List Char × List Char) → List Char → List Char →
    List (List Char × List Char)
  | [], k, v => [(k, v)]
  | (k', v') :: rest, k, v =>
    if k' = k then (k', v) :: rest else (k', v') :: insertKV rest k v

/-- Lookup in the association list (Python `options[key]` / `in`). -/
def lookupKV : List (List Char × List Char) → List Char → Option (List Char)
  | [], _ => none
  | (k', v) :: rest, k => if k' = k then some v else lookupKV rest k

/-- The loop `for op in ops: ... options[key] = value`. -/
def buildOptions (ops : List (List Char)) : List (List Char × List Char) :=
  ops.foldl
    (fun acc op =>
      match splitKV op with
      | some (k, v) => insertKV acc k v
      | none => acc)
    []

/-- The value the options dictionary ends up holding for `k`: the value of
the last token (in left-to-right order) whose key is `k`. -/
def lastSplitValue : List (List Char) → List Char → Option (List Char)
  | [], _ => none
  | t :: rest, k =>
    match lastSplitValue rest k with
    | some v => some v
    | none =>
      match splitKV t with
      | some (k', v) => if k' = k then some v else none
      | none => none

/-! ## The stage descriptor record

Modelled from the spec: `model_def.BlockArgs` is an immutable record
(namedtuple) with exactly the fields passed at the construction site in
`_decode_block_string`; the `model_def` module itself is not part of the
sources.  Field order follows that construction site. -/

structure BlockArgs where
  kernel_size : Nat
  num_repeat : Nat
  input_filters : Nat
  output_filters : Nat
  expand_ratio : Nat
  id_skip : Bool
  se_ratio : Option ℚ
  strides : Nat × Nat
  deriving DecidableEq, Repr

/-- The failures `_decode_block_string` can raise: `stridesError` is
`ValueError('Strides options should be a pair of integers.')`, `missingKey`
is the `KeyError` from `options[key]` on an absent key, `badInt`/`badFloat`
are the `ValueError`s from `int`/`float` on a non-numeric value. -/
inductive DecodeErr where
  | stridesError
  | missingKey (key : List Char)
  | badInt (value : List Char)
  | badFloat (value : List Char)
  deriving DecidableEq, Repr

instance {ε α : Type _} [DecidableEq ε] [DecidableEq α] :
    DecidableEq (Except ε α)
  | .error e, .error e' =>
    if h : e = e' then .isTrue (by rw [h]) else .isFalse (by simp [h])
  | .error _, .ok _ => .isFalse (by simp)
  | .ok _, .error _ => .isFalse (by simp)
  | .ok a, .ok a' =>
    if h : a = a' then .isTrue (by rw [h]) else .isFalse (by simp [h])

/-- The characters of the literal `noskip`. -/
def noskipChars : List Char := ['n', 'o', 's', 'k', 'i', 'p']

/-- `int(options[key])`: `KeyError` when the key is absent, `ValueError`
when the value is not numeric. -/
def getIntOpt (options : List (List Char × List Char)) (key : List Char) :
    Except DecodeErr Nat :=
  match lookupKV options key with
  | none => .error (.missingKey key)
  | some v =>
    match parseNatC v with
    | some n => .ok n
    | none => .error (.badInt v)

/-- `float(options['se']) if 'se' in options else None`. -/
def getSeOpt (options : List (List Char × List Char)) :
    Except DecodeErr (Option ℚ) :=
  match lookupKV options ['s', 'e'] with
  | none => .ok none
  | some v =>
    match parseFloatC v with
    | some q => .ok (some q)
    | none => .error (.badFloat v)

/-- `int(options['s'][i])` on a single stride character. -/
def getDigit (c : Char) : Except DecodeErr Nat :=
  match charToDigit? c with
  | some d => .ok d
  | none => .error (.badInt [c])

/-- The options dictionary a descriptor string parses to. -/
def optionsOf (s : String) : List (List Char × List Char) :=
  buildOptions (splitOnCh '_' s.toList)

/-- `MnasNetDecoder._decode_block_string`.  Splits on `_`, builds the options
dictionary, checks the strides value is exactly two characters, then parses
the fields in Python's keyword-argument evaluation order
(`k`, `r`, `i`, `o`, `e`, `se`, strides digits). -/
def decode_block_string (s : String) : Except DecodeErr BlockArgs :=
  match lookupKV (optionsOf s) ['s'] with
  | none => .error .stridesError
  | some sv =>
    match sv with
    | [c0, c1] =>
      match getIntOpt (optionsOf s) ['k'] with
      | .error er => .error er
      | .ok k =>
        match getIntOpt (optionsOf s) ['r'] with
        | .error er => .error er
        | .ok r =>
          match getIntOpt (optionsOf s) ['i'] with
          | .error er => .error er
          | .ok i =>
            match getIntOpt (optionsOf s) ['o'] with
            | .error er => .error er
            | .ok o =>
              match getIntOpt (optionsOf s) ['e'] with
              | .error er => .error er
              | .ok e =>
                match getSeOpt (optionsOf s) with
                | .error er => .error er
                | .ok se =>
                  match getDigit c0 with
                  | .error er => .error er
                  | .ok s0 =>
                    match getDigit c1 with
                    | .error er => .error er
                    | .ok s1 =>
                      .ok { kernel_size := k, num_repeat := r,
                            input_filters := i, output_filters := o,
                            expand_ratio := e,
                            id_skip := !(hasSub s.toList noskipChars),
                            se_ratio := se, strides := (s0, s1) }
    | _ => .error .stridesError

/-- The six fixed tokens of `_encode_block_string`:
`'r%d' % num_repeat`, `'k%d' % kernel_size`, `'s%d%d' % strides`,
`'e%s' % expand_ratio`, `'i%d' % input_filters`, `'o%d' % output_filters`. -/
def frontTokens (b : BlockArgs) : List (List Char) :=
  ['r' :: natDigits b.num_repeat,
   'k' :: natDigits b.kernel_size,
   's' :: (natDigits b.strides.1 ++ natDigits b.strides.2),
   'e' :: natDigits b.expand_ratio,
   'i' :: natDigits b.input_filters,
   'o' :: natDigits b.output_filters]

/-- The conditional `se<ratio>` token: appended exactly when
`0 < se_ratio <= 1` (under Python 2, `None > 0` is `False`, so an absent
ratio skips the token without error). -/
def seTokens (b : BlockArgs) : List (List Char) :=
  match b.se_ratio with
  | some q => if 0 < q ∧ q ≤ 1 then [['s', 'e'] ++ pyStr q] else []
  | none => []

/-- The conditional `noskip` token: appended exactly when `id_skip` is
false. -/
def skipTokens (b : BlockArgs) : List (List Char) :=
  if b.id_skip = false then [noskipChars] else []

/-- `MnasNetDecoder._encode_block_string` as a token list. -/
def encodeArgs (b : BlockArgs) : List (List Char) :=
  frontTokens b ++ seTokens b ++ skipTokens b

/-- `MnasNetDecoder._encode_block_string`: `'_'.join(args)`. -/
def encode_block_string (b : BlockArgs) : String :=
  ⟨joinWith '_' (encodeArgs b)⟩

/-- `MnasNetDecoder.decode`: decode each string in order, first failure
aborts the whole call. -/
def decode : List String → Except DecodeErr (List BlockArgs)
  | [] => .ok []
  | s :: rest =>
    match decode_block_string s with
    | .error e => .error e
    | .ok b =>
      match decode rest with
      | .error e => .error e
      | .ok bs => .ok (b :: bs)

/-- `MnasNetDecoder.encode`: elementwise encoding, order preserved. -/
def encode (l : List BlockArgs) : List String :=
  l.map encode_block_string

/-- A rational that Python 2's 12-significant-digit `str` prints exactly: a
finite decimal expansion with at most 12 significant digits (`n < 10 ^ 12`
over a power-of-ten denominator). -/
def decimal12 (q : ℚ) : Prop :=
  ∃ n e : Nat, n < 10 ^ 12 ∧ e ≤ 1088 ∧ q = mkRat n (10 ^ e)

/-- The invariants of a stage descriptor under which the round-trip holds:
positive integer fields, strides a pair of digits `0`-`9`, and `se_ratio`
absent or a float in `(0, 1]` whose decimal expansion has at most 12
significant digits (ratios needing more digits are rounded by Python 2's
`str` and drift, see the C1/C6 counterexamples). -/
def ValidBlock (d : BlockArgs) : Prop :=
  0 < d.num_repeat ∧ 0 < d.kernel_size ∧ 0 < d.expand_ratio ∧
  0 < d.input_filters ∧ 0 < d.output_filters ∧
  d.strides.1 ≤ 9 ∧ d.strides.2 ≤ 9 ∧
  (match d.se_ratio with
   | none => True
   | some q => 0 < q ∧ q ≤ 1 ∧ decimal12 q)

/-! ## Global parameters and overrides -/

/-- A dynamically typed Python value, as stored in `GlobalParams` fields and
override dictionaries (namedtuples do not constrain field types). -/
inductive PyVal where
  | pint (n : Int)
  | pfloat (q : ℚ)
  | pstr (s : String)
  | pnone
  | pbool (b : Bool)
  deriving DecidableEq, Repr

/-- Modelled from the spec: `model_def.GlobalParams` (the `model_def` module
is not part of the sources) is an immutable record (namedtuple) whose fields
are those listed in the specification's data model plus the extension fields
`expratio` and `kernel` passed at the `mnasnet_backbone` construction site.
Field order follows that construction site. -/
structure GlobalParams where
  batch_norm_momentum : PyVal
  batch_norm_epsilon : PyVal
  dropout_rate : PyVal
  data_format : PyVal
  num_classes : PyVal
  depth_multiplier : PyVal
  depth_divisor : PyVal
  expratio : PyVal
  kernel : PyVal
  min_depth : PyVal
  deriving DecidableEq, Repr

/-- The field names of `GlobalParams` (`GlobalParams._fields`). -/
def fieldNames : List String :=
  ["batch_norm_momentum", "batch_norm_epsilon", "dropout_rate",
   "data_format", "num_classes", "depth_multiplier", "depth_divisor",
   "expratio", "kernel", "min_depth"]

/-- Attribute access `getattr(gp, name)`; `none` when `name` is not a field. -/
def getField (gp : GlobalParams) (name : String) : Option PyVal :=
  if name = "batch_norm_momentum" then some gp.batch_norm_momentum
  else if name = "batch_norm_epsilon" then some gp.batch_norm_epsilon
  else if name = "dropout_rate" then some gp.dropout_rate
  else if name = "data_format" then some gp.data_format
  else if name = "num_classes" then some gp.num_classes
  else if name = "depth_multiplier" then some gp.depth_multiplier
  else if name = "depth_divisor" then some gp.depth_divisor
  else if name = "expratio" then some gp.expratio
  else if name = "kernel" then some gp.kernel
  else if name = "min_depth" then some gp.min_depth
  else none

/-- Copy-with-one-field-changed; `none` when `name` is not a field. -/
def replaceOne (gp : GlobalParams) (name : String) (v : PyVal) :
    Option GlobalParams :=
  if name = "batch_norm_momentum" then some { gp with batch_norm_momentum := v }
  else if name = "batch_norm_epsilon" then some { gp with batch_norm_epsilon := v }
  else if name = "dropout_rate" then some { gp with dropout_rate := v }
  else if name = "data_format" then some { gp with data_format := v }
  else if name = "num_classes" then some { gp with num_classes := v }
  else if name = "depth_multiplier" then some { gp with depth_multiplier := v }
  else if name = "depth_divisor" then some { gp with depth_divisor := v }
  else if name = "expratio" then some { gp with expratio := v }
  else if name = "kernel" then some { gp with kernel := v }
  else if name = "min_depth" then some { gp with min_depth := v }
  else none

/-- Modelled from the spec: `global_params._replace(**override_params)`
(namedtuple `_replace` is Python library code outside the sources).  Every
key must name an existing field; an unknown key fails (`ValueError`, carried
as the offending key name) with no partially merged record; valid keys
produce a fresh record, the original is never mutated. -/
def applyOverrides (gp : GlobalParams) :
    List (String × PyVal) → Except String GlobalParams
  | [] => .ok gp
  | (k, v) :: rest =>
    match replaceOne gp k v with
    | some gp' => applyOverrides gp' rest
    | none => .error k

/-- Python dictionary lookup `d[key]` on an override mapping. -/
def ovLookup : List (String × PyVal) → String → Option PyVal
  | [], _ => none
  | (k', v) :: rest, k => if k' = k then some v else ovLookup rest k

/-! ## The parametric preset (`mnasnet_backbone`) and model dispatch -/

/-- Python `str(i)` on an integer. -/
def intChars (i : Int) : List Char :=
  if i < 0 then '-' :: natDigits i.natAbs else natDigits i.toNat

/-- Python `int(s)` on a string: optional sign followed by decimal digits. -/
def parseIntC : List Char → Option Int
  | '-' :: rest => (parseNatC rest).map (fun n => -(n : Int))
  | '+' :: rest => (parseNatC rest).map (fun n => (n : Int))
  | l => (parseNatC l).map (fun n => (n : Int))

/-- Python `int(v)` on a dynamically typed value: ints pass through, floats
truncate toward zero, strings parse as decimal integers, `None` fails. -/
def pyInt : PyVal → Option Int
  | .pint n => some n
  | .pfloat q => some (Int.tdiv q.num (Int.ofNat q.den))
  | .pstr s => parseIntC s.toList
  | .pnone => none
  | .pbool b => some (if b then 1 else 0)

/-- The block-argument strings of `mnasnet_backbone(k, e)`: first and last
stage fixed (kernel 3, non-skippable, last stage expansion 6), middle stages
with the caller's kernel and expansion ratio substituted. -/
def stageStrings (k e : Int) : List String :=
  ["r1_k3_s11_e1_i32_o16_noskip",
   ⟨"r4_k".toList ++ intChars k ++ "_s22_e".toList ++ intChars e ++ "_i16_o24".toList⟩,
   ⟨"r4_k".toList ++ intChars k ++ "_s22_e".toList ++ intChars e ++ "_i24_o40".toList⟩,
   ⟨"r4_k".toList ++ intChars k ++ "_s22_e".toList ++ intChars e ++ "_i40_o80".toList⟩,
   ⟨"r4_k".toList ++ intChars k ++ "_s11_e".toList ++ intChars e ++ "_i80_o96".toList⟩,
   ⟨"r4_k".toList ++ intChars k ++ "_s22_e".toList ++ intChars e ++ "_i96_o192".toList⟩,
   "r1_k3_s11_e6_i192_o320_noskip"]

/-- `mnasnet_backbone(k, e)`: decodes the stage strings and constructs the
global parameters with the fixed defaults (floats written as exact
rationals: `0.99`, `1e-3`, `0.2`). -/
def mnasnet_backbone (k e : Int) :
    Except DecodeErr (List BlockArgs) × GlobalParams :=
  (decode (stageStrings k e),
   { batch_norm_momentum := .pfloat (mkRat 99 100),
     batch_norm_epsilon := .pfloat (mkRat 1 1000),
     dropout_rate := .pfloat (mkRat 1 5),
     data_format := .pstr "channels_last",
     num_classes := .pint 1000,
     depth_multiplier := .pnone,
     depth_divisor := .pint 8,
     expratio := .pint e,
     kernel := .pint k,
     min_depth := .pnone })

/-- The failures of `build_mnasnet_model`'s configuration phase:
`NotImplementedError` for an unknown model name, `KeyError` for a missing
build parameter, `ValueError` from `int` on a non-coercible parameter,
a propagated decode failure, and the `ValueError` from `_replace` on an
unknown override field. -/
inductive BuildErr where
  | notImplemented (name : String)
  | keyMissing (key : String)
  | badParam (key : String)
  | decodeFail (e : DecodeErr)
  | badField (key : String)
  deriving DecidableEq, Repr

/-- The configuration phase of `build_mnasnet_model` (lines 178-188): the
tensor-building tail of the function consumes the returned pair and is an
external collaborator outside this core.  For `'mnasnet-backbone'` the
`kernel` and `expratio` entries of `override_params` are coerced to int and
fed to `mnasnet_backbone`; a non-empty `override_params` is then merged into
the global parameters via `_replace`. -/
def build_mnasnet_config (model_name : String)
    (override_params : List (String × PyVal)) :
    Except BuildErr (List BlockArgs × GlobalParams) :=
  if model_name = "mnasnet-backbone" then
    match ovLookup override_params "kernel" with
    | none => .error (.keyMissing "kernel")
    | some kv =>
      match pyInt kv with
      | none => .error (.badParam "kernel")
      | some kernel =>
        match ovLookup override_params "expratio" with
        | none => .error (.keyMissing "expratio")
        | some ev =>
          match pyInt ev with
          | none => .error (.badParam "expratio")
          | some expratio =>
            match mnasnet_backbone kernel expratio with
            | (.error e, _) => .error (.decodeFail e)
            | (.ok blocks, gp) =>
              if override_params.isEmpty then .ok (blocks, gp)
              else
                match applyOverrides gp override_params with
                | .ok gp' => .ok (blocks, gp')
                | .error k => .error (.badField k)
  else .error (.notImplemented model_name)

/-- The stage list of a successful configuration build. -/
def blocksOf (r : Except BuildErr (List BlockArgs × GlobalParams)) :
    Option (List BlockArgs) :=
  r.toOption.map Prod.fst

/-- The `i`-th stage descriptor of a successful configuration build. -/
def stageAt (r : Except BuildErr (List BlockArgs × GlobalParams)) (i : Nat) :
    Option BlockArgs :=
  (blocksOf r).bind fun bs => bs.get? i

/-! ## Lemmas: digits and numerals -/

theorem charToDigit?_digitChar {d : Nat} (h : d < 10) :
    charToDigit? (digitChar d) = some d := by
  interval_cases d <;> rfl

theorem isDigitB_iff {c : Char} :
    isDigitB c = true ↔
      c ∈ ['0', '1', '2', '3', '4', '5', '6', '7', '8', '9'] := by
  unfold isDigitB charToDigit?
  split_ifs with h0 h1 h2 h3 h4 h5 h6 h7 h8 h9 <;> simp_all

theorem natDigitsAux_congr :
    ∀ n f₁ f₂, n < f₁ → n < f₂ → natDigitsAux f₁ n = natDigitsAux f₂ n := by
  intro n
  induction n using Nat.strong_induction_on with
  | _ n ih =>
    intro f₁ f₂ h₁ h₂
    match f₁, f₂ with
    | g₁ + 1, g₂ + 1 =>
      by_cases h : n < 10
      · simp [natDigitsAux, h]
      · have hlt : n / 10 < n := Nat.div_lt_self (by omega) (by omega)
        simp only [natDigitsAux, if_neg h]
        rw [ih (n / 10) hlt g₁ g₂ (by omega) (by omega)]

theorem natDigits_eq (n : Nat) :
    natDigits n =
      if n < 10 then [digitChar n]
      else natDigits (n / 10) ++ [digitChar (n % 10)] := by
  have h0 : natDigits n =
      if n < 10 then [digitChar n]
      else natDigitsAux n (n / 10) ++ [digitChar (n % 10)] := rfl
  rw [h0]
  by_cases h : n < 10
  · simp [h]
  · have hlt : n / 10 < n := Nat.div_lt_self (by omega) (by omega)
    rw [if_neg h, if_neg h,
      natDigitsAux_congr (n / 10) n (n / 10 + 1) (by omega) (by omega)]
    rfl

theorem natDigits_ne_nil (n : Nat) : natDigits n ≠ [] := by
  rw [natDigits_eq]
  split_ifs <;> simp

theorem natDigits_all_digits (n : Nat) :
    ∀ c ∈ natDigits n, isDigitB c = true := by
  induction n using Nat.strong_induction_on with
  | _ n ih =>
    rw [natDigits_eq]
    by_cases h : n < 10
    · simp only [if_pos h, List.mem_singleton]
      rintro c rfl
      simp [isDigitB, charToDigit?_digitChar h]
    · have hlt : n / 10 < n := Nat.div_lt_self (by omega) (by omega)
      simp only [if_neg h, List.mem_append, List.mem_singleton]
      rintro c (hc | rfl)
      · exact ih (n / 10) hlt c hc
      · simp [isDigitB, charToDigit?_digitChar (Nat.mod_lt n (by omega))]

theorem natVal_from (acc : Nat) (l : List Char) :
    l.foldl (fun a c => 10 * a + ((charToDigit? c).getD 0)) acc =
      acc * 10 ^ l.length + natVal l := by
  induction l generalizing acc with
  | nil => simp [natVal]
  | cons c rest ih =>
    have hl : natVal (c :: rest) =
        List.foldl (fun a x => 10 * a + ((charToDigit? x).getD 0))
          (10 * 0 + ((charToDigit? c).getD 0)) rest := rfl
    rw [List.foldl_cons, ih, hl, ih, List.length_cons]
    ring

theorem natVal_append (a b : List Char) :
    natVal (a ++ b) = natVal a * 10 ^ b.length + natVal b := by
  have h : natVal (a ++ b) =
      List.foldl (fun x c => 10 * x + ((charToDigit? c).getD 0))
        (natVal a) b := by
    rw [natVal, List.foldl_append]
    rfl
  rw [h, natVal_from]

theorem natVal_natDigits (n : Nat) : natVal (natDigits n) = n := by
  induction n using Nat.strong_induction_on with
  | _ n ih =>
    rw [natDigits_eq]
    by_cases h : n < 10
    · simp [if_pos h, natVal, charToDigit?_digitChar h]
    · have hlt : n / 10 < n := Nat.div_lt_self (by omega) (by omega)
      rw [if_neg h, natVal_append, ih (n / 10) hlt]
      have : natVal [digitChar (n % 10)] = n % 10 := by
        simp [natVal, charToDigit?_digitChar (Nat.mod_lt n (by omega))]
      rw [this]
      simp only [List.length_singleton, pow_one]
      omega

theorem allDigitsB_natDigits (n : Nat) : allDigitsB (natDigits n) = true := by
  simp only [allDigitsB, List.all_eq_true]
  exact fun c hc => natDigits_all_digits n c hc

theorem parseNatC_natDigits (n : Nat) : parseNatC (natDigits n) = some n := by
  unfold parseNatC
  rw [if_neg (by simp [List.isEmpty_iff, natDigits_ne_nil n]),
    if_pos (allDigitsB_natDigits n), natVal_natDigits]

theorem natDigits_lt10 {n : Nat} (h : n < 10) : natDigits n = [digitChar n] := by
  rw [natDigits_eq, if_pos h]

theorem natDigits_length_le {k : Nat} :
    ∀ m, m < 10 ^ k → 1 ≤ k → (natDigits m).length ≤ k := by
  induction k with
  | zero => omega
  | succ k ihk =>
    intro m hm _
    rw [natDigits_eq]
    by_cases h : m < 10
    · rw [if_pos h]
      simp only [List.length_singleton]
      omega
    · rw [if_neg h]
      have h10 : m / 10 < 10 ^ k := by
        rw [pow_succ] at hm
        exact Nat.div_lt_of_lt_mul (by omega)
      have hk1 : 1 ≤ k := by
        by_contra hk
        have : k = 0 := by omega
        subst this
        simp at h10
        omega
      have := ihk (m / 10) h10 hk1
      simp only [List.length_append, List.length_singleton]
      omega

/-- A digit character is not one of the structural characters used by the
token grammar. -/
theorem digit_char_ne {c : Char} (h : isDigitB c = true) :
    c ≠ '_' ∧ c ≠ '.' ∧ c ≠ 'n' := by
  rw [isDigitB_iff] at h
  fin_cases h <;> refine ⟨by decide, by decide, by decide⟩

/-! ## Lemmas: zero padding -/

theorem natVal_replicate_zero (m : Nat) :
    natVal (List.replicate m '0') = 0 := by
  induction m with
  | zero => rfl
  | succ m ih =>
    rw [List.replicate_succ', natVal_append, ih]
    decide

theorem natVal_padZeros (k : Nat) (l : List Char) :
    natVal (padZeros k l) = natVal l := by
  unfold padZeros
  rw [natVal_append, natVal_replicate_zero]
  simp

theorem padZeros_length {k : Nat} {l : List Char} (h : l.length ≤ k) :
    (padZeros k l).length = k := by
  unfold padZeros
  simp
  omega

theorem allDigitsB_padZeros {k : Nat} {l : List Char}
    (h : allDigitsB l = true) : allDigitsB (padZeros k l) = true := by
  unfold padZeros
  unfold allDigitsB at h ⊢
  simp only [List.all_append, Bool.and_eq_true]
  refine ⟨?_, h⟩
  simp only [List.all_eq_true]
  intro c hc
  rw [List.eq_of_mem_replicate hc]
  decide

/-! ## Lemmas: splitting and joining -/

theorem splitOnCh_no_sep {sep : Char} :
    ∀ {a : List Char}, sep ∉ a → splitOnCh sep a = [a] := by
  intro a
  induction a with
  | nil => intro _; rfl
  | cons c rest ih =>
    intro h
    have hc : ¬c = sep := fun hc => h (by simp [hc])
    have hr : sep ∉ rest := fun hr => h (List.mem_cons_of_mem _ hr)
    simp only [splitOnCh, if_neg hc, ih hr]

theorem splitOnCh_append_sep {sep : Char} :
    ∀ {a rest : List Char}, sep ∉ a →
      splitOnCh sep (a ++ sep :: rest) = a :: splitOnCh sep rest := by
  intro a
  induction a with
  | nil =>
    intro rest _
    simp [splitOnCh]
  | cons c tl ih =>
    intro rest h
    have hc : ¬c = sep := fun hc => h (by simp [hc])
    have htl : sep ∉ tl := fun hr => h (List.mem_cons_of_mem _ hr)
    simp only [List.cons_append, splitOnCh, if_neg hc, List.append_eq]
    rw [ih htl]

theorem splitOnCh_joinWith {sep : Char} :
    ∀ {parts : List (List Char)}, parts ≠ [] →
      (∀ p ∈ parts, sep ∉ p) →
      splitOnCh sep (joinWith sep parts) = parts := by
  intro parts
  induction parts with
  | nil => intro h _; exact absurd rfl h
  | cons a rest ih =>
    intro _ hall
    match rest with
    | [] => exact splitOnCh_no_sep (hall a (List.mem_cons_self a []))
    | b :: rest' =>
      have hstep : joinWith sep (a :: b :: rest') =
          a ++ sep :: joinWith sep (b :: rest') := rfl
      rw [hstep, splitOnCh_append_sep (hall a (List.mem_cons_self a _)),
        ih (by simp) (fun p hp => hall p (List.mem_cons_of_mem _ hp))]

/-! ## Lemmas: the token splitter -/

theorem splitKV_of_keyval :
    ∀ {key : List Char} {v : List Char},
      (∀ c ∈ key, isDigitB c = false) →
      (∃ d rest, v = d :: rest ∧ isDigitB d = true) →
      splitKV (key ++ v) = some (key, v) := by
  intro key
  induction key with
  | nil =>
    rintro v _ ⟨d, rest, rfl, hd⟩
    simp [splitKV, hd]
  | cons c tl ih =>
    intro v hk hv
    have hc : isDigitB c = false := hk c (List.mem_cons_self c tl)
    have htl : ∀ x ∈ tl, isDigitB x = false :=
      fun x hx => hk x (List.mem_cons_of_mem _ hx)
    simp only [List.cons_append, splitKV, hc, Bool.false_eq_true, if_false,
      List.append_eq]
    rw [ih htl hv]

theorem splitKV_of_no_digit :
    ∀ {l : List Char}, (∀ c ∈ l, isDigitB c = false) → splitKV l = none := by
  intro l
  induction l with
  | nil => intro _; rfl
  | cons c tl ih =>
    intro h
    have hc : isDigitB c = false := h c (List.mem_cons_self c tl)
    have htl : ∀ x ∈ tl, isDigitB x = false :=
      fun x hx => h x (List.mem_cons_of_mem _ hx)
    simp only [splitKV, hc, Bool.false_eq_true, if_false, ih htl]

/-! ## Lemmas: the options dictionary -/

theorem lookupKV_insertKV_self :
    ∀ (l : List (List Char × List Char)) (k v : List Char),
      lookupKV (insertKV l k v) k = some v := by
  intro l
  induction l with
  | nil => intro k v; simp [insertKV, lookupKV]
  | cons p rest ih =>
    intro k v
    match p with
    | (k', v') =>
      by_cases h : k' = k
      · simp [insertKV, lookupKV, h]
      · simp only [insertKV, if_neg h, lookupKV, ih]

theorem lookupKV_insertKV_ne :
    ∀ (l : List (List Char × List Char)) (k' v k : List Char), k' ≠ k →
      lookupKV (insertKV l k' v) k = lookupKV l k := by
  intro l
  induction l with
  | nil => intro k' v k h; simp [insertKV, lookupKV, h]
  | cons p rest ih =>
    intro k' v k h
    match p with
    | (k'', v'') =>
      by_cases h2 : k'' = k'
      · subst h2
        simp [insertKV, lookupKV, if_neg h]
      · simp only [insertKV, if_neg h2, lookupKV, ih _ _ _ h]

theorem lookupKV_foldOptions :
    ∀ (ops : List (List Char)) (acc : List (List Char × List Char))
      (k : List Char),
      lookupKV
        (ops.foldl
          (fun acc op =>
            match splitKV op with
            | some (k, v) => insertKV acc k v
            | none => acc)
          acc) k =
        match lastSplitValue ops k with
        | some v => some v
        | none => lookupKV acc k := by
  intro ops
  induction ops with
  | nil => intro acc k; simp [lastSplitValue]
  | cons t rest ih =>
    intro acc k
    simp only [List.foldl_cons, lastSplitValue]
    match hkv : splitKV t with
    | none =>
      rw [ih]
      match lastSplitValue rest k with
      | some v => rfl
      | none => rfl
    | some (k', v) =>
      rw [ih]
      match lastSplitValue rest k with
      | some w => rfl
      | none =>
        by_cases h : k' = k
        · subst h
          simp [lookupKV_insertKV_self]
        · simp only [lookupKV_insertKV_ne _ _ _ _ h, if_neg h]

/-- The options dictionary maps each key to the value of the last token
carrying that key: later tokens overwrite earlier ones. -/
theorem lookupKV_buildOptions (ops : List (List Char)) (k : List Char) :
    lookupKV (buildOptions ops) k =
      match lastSplitValue ops k with
      | some v => some v
      | none => none := by
  unfold buildOptions
  rw [lookupKV_foldOptions]
  match lastSplitValue ops k with
  | some v => rfl
  | none => rfl

/-! ## Lemmas: substring containment -/

theorem beginsWith_mem :
    ∀ {pat l : List Char}, beginsWith pat l = true → ∀ c ∈ pat, c ∈ l := by
  intro pat
  induction pat with
  | nil => intro l _ c hc; simp at hc
  | cons p ps ih =>
    intro l h c hc
    match l with
    | [] => simp [beginsWith] at h
    | x :: xs =>
      simp only [beginsWith] at h
      split_ifs at h with hpx
      rcases List.mem_cons.mp hc with rfl | hc'
      · exact hpx ▸ List.mem_cons_self _ _
      · exact List.mem_cons_of_mem _ (ih h c hc')

theorem hasSub_mem :
    ∀ {l pat : List Char}, hasSub l pat = true → ∀ c ∈ pat, c ∈ l := by
  intro l
  induction l with
  | nil =>
    intro pat h c hc
    match pat with
    | [] => simp at hc
    | _ :: _ => simp [hasSub, beginsWith] at h
  | cons x xs ih =>
    intro pat h c hc
    simp only [hasSub, Bool.or_eq_true] at h
    rcases h with h | h
    · exact beginsWith_mem h c hc
    · exact List.mem_cons_of_mem _ (ih h c hc)

theorem beginsWith_refl : ∀ (l : List Char), beginsWith l l = true := by
  intro l
  induction l with
  | nil => rfl
  | cons c rest ih => simp [beginsWith, ih]

theorem hasSub_append_right :
    ∀ (l₁ l₂ pat : List Char), hasSub l₂ pat = true →
      hasSub (l₁ ++ l₂) pat = true := by
  intro l₁
  induction l₁ with
  | nil => intro l₂ pat h; simpa using h
  | cons c tl ih =>
    intro l₂ pat h
    simp only [List.cons_append, hasSub, Bool.or_eq_true]
    exact Or.inr (ih l₂ pat h)

theorem hasSub_noskip_of_endsWith (l : List Char) :
    hasSub (l ++ noskipChars) noskipChars = true := by
  apply hasSub_append_right
  simp [hasSub, noskipChars, beginsWith_refl]

theorem hasSub_noskip_eq_false {l : List Char}
    (h : ∀ c ∈ l, c ≠ 'n') : hasSub l noskipChars = false := by
  cases hh : hasSub l noskipChars with
  | false => rfl
  | true =>
    have : 'n' ∈ l := hasSub_mem hh 'n' (by simp [noskipChars])
    exact absurd rfl (h 'n' this)

/-! ## Lemmas: float printing and parsing round-trip -/

theorem parseFloatC_append_eval {a b : List Char} (ha : a.isEmpty = false)
    (hda : allDigitsB a = true) (hdb : allDigitsB b = true)
    (hnda : '.' ∉ a) (hndb : '.' ∉ b) :
    parseFloatC (a ++ '.' :: b) =
      some (mkRat (natVal a * 10 ^ b.length + natVal b) (10 ^ b.length)) := by
  unfold parseFloatC
  rw [splitOnCh_append_sep hnda, splitOnCh_no_sep hndb]
  simp [ha, hda, hdb]

theorem mkRat_nat_eq_div (n d : Nat) :
    mkRat (n : Int) d = (n : ℚ) / (d : ℚ) := by
  rw [Rat.mkRat_eq_divInt, Rat.divInt_eq_div]
  simp only [Int.cast_natCast]

theorem rndHalfEven_exact {N D : Nat} (h : N % D = 0) (hD : 0 < D) :
    rndHalfEven N D = N / D := by
  unfold rndHalfEven
  rw [h]
  simp [hD]

theorem stripZeros_spec : ∀ (fuel n : Nat),
    n = (stripZeros fuel n).1 * 10 ^ (stripZeros fuel n).2 := by
  intro fuel
  induction fuel with
  | zero => intro n; simp [stripZeros]
  | succ fuel ih =>
    intro n
    unfold stripZeros
    by_cases h : n ≠ 0 ∧ n % 10 = 0
    · rw [if_pos h]
      show n = (stripZeros fuel (n / 10)).1 *
        10 ^ ((stripZeros fuel (n / 10)).2 + 1)
      rw [pow_succ, ← Nat.mul_assoc, ← ih (n / 10)]
      exact (Nat.div_mul_cancel (Nat.dvd_of_mod_eq_zero h.2)).symm
    · rw [if_neg h]
      simp

theorem stripZeros_fst_pos {fuel n : Nat} (h : 0 < n) :
    0 < (stripZeros fuel n).1 := by
  rcases Nat.eq_zero_or_pos (stripZeros fuel n).1 with h0 | h1
  · exfalso
    have hs := stripZeros_spec fuel n
    rw [h0] at hs
    simp at hs
    omega
  · exact h1

theorem pyStr_parse (q : ℚ) (hq : 0 < q) (hq1 : q ≤ 1) (hfd : decimal12 q) :
    parseFloatC (pyStr q) = some q ∧
    (∃ d rest, pyStr q = d :: rest ∧ isDigitB d = true) ∧
    (∀ c ∈ pyStr q, isDigitB c = true ∨ c = '.') := by
  obtain ⟨n, e, hn12, he, hqe⟩ := hfd
  have hnum0 : 0 < q.num := Rat.num_pos.mpr hq
  have hnumtn : (q.num.toNat : ℤ) = q.num := Int.toNat_of_nonneg (le_of_lt hnum0)
  have hnumQ : ((q.num.toNat : ℕ) : ℚ) = (q.num : ℚ) := by exact_mod_cast hnumtn
  have hdpos : 0 < q.den := q.den_pos
  have hdenne : ((q.den : ℕ) : ℚ) ≠ 0 := by
    simp only [ne_eq, Nat.cast_eq_zero]
    omega
  have hntpos : 0 < q.num.toNat := by omega
  have h10pos : (0 : ℚ) < ((10 ^ e : ℕ) : ℚ) := by positivity
  have h10ne : ((10 ^ e : ℕ) : ℚ) ≠ 0 := ne_of_gt h10pos
  have hb1 : (q.num : ℚ) = q * (q.den : ℚ) := by
    calc (q.num : ℚ) = (q.num : ℚ) / (q.den : ℚ) * (q.den : ℚ) :=
          (div_mul_cancel₀ _ hdenne).symm
      _ = q * (q.den : ℚ) := by rw [Rat.num_div_den]
  have hb2 : (n : ℚ) = q * ((10 ^ e : ℕ) : ℚ) := by
    have h2 : (n : ℚ) / ((10 ^ e : ℕ) : ℚ) = q := by
      rw [← mkRat_nat_eq_div, ← hqe]
    calc (n : ℚ) = (n : ℚ) / ((10 ^ e : ℕ) : ℚ) * ((10 ^ e : ℕ) : ℚ) :=
          (div_mul_cancel₀ _ h10ne).symm
      _ = q * ((10 ^ e : ℕ) : ℚ) := by rw [h2]
  have hcrossQ : (q.num.toNat : ℚ) * ((10 ^ e : ℕ) : ℚ) =
      (n : ℚ) * (q.den : ℚ) := by
    rw [hnumQ, hb1, hb2]
    ring
  have hcross : q.num.toNat * 10 ^ e = n * q.den := by exact_mod_cast hcrossQ
  have hn0 : 0 < n := by
    rcases Nat.eq_zero_or_pos n with h0 | h1
    · exfalso
      have hpos : 0 < q.num.toNat * 10 ^ e :=
        Nat.mul_pos hntpos (by positivity)
      rw [hcross, h0] at hpos
      simp at hpos
    · exact h1
  have hnumden : q.num.toNat ≤ q.den := by
    have hcle : (q.num.toNat : ℚ) ≤ (q.den : ℚ) := by
      rw [hnumQ, hb1]
      calc q * (q.den : ℚ) ≤ 1 * (q.den : ℚ) := by
            apply mul_le_mul_of_nonneg_right hq1
            positivity
        _ = (q.den : ℚ) := one_mul _
    exact_mod_cast hcle
  have hex : ∃ p, (List.range 1101).find?
      (fun p => q.den ≤ q.num.toNat * 10 ^ p) = some p := by
    cases hf : (List.range 1101).find? (fun p => q.den ≤ q.num.toNat * 10 ^ p) with
    | some p => exact ⟨p, rfl⟩
    | none =>
      exfalso
      have hno := List.find?_eq_none.mp hf e (List.mem_range.mpr (by omega))
      apply hno
      simp only [decide_eq_true_eq]
      rw [hcross]
      calc q.den = 1 * q.den := (one_mul _).symm
        _ ≤ n * q.den := Nat.mul_le_mul_right _ hn0
  obtain ⟨p, hfind⟩ := hex
  have hP : q.den ≤ q.num.toNat * 10 ^ p := by
    have hp := List.find?_some hfind
    simpa using hp
  have hep : e ≤ p + 11 := by
    by_contra hcon
    push_neg at hcon
    have hpe : p + (e - p) = e := by omega
    have h1 : (10 : ℕ) ^ p * 10 ^ (e - p) = 10 ^ e := by
      rw [← pow_add, hpe]
    have h2 : q.den * 10 ^ (e - p) ≤ q.num.toNat * 10 ^ p * 10 ^ (e - p) :=
      Nat.mul_le_mul_right _ hP
    have h3 : q.num.toNat * 10 ^ p * 10 ^ (e - p) = n * q.den := by
      rw [Nat.mul_assoc, h1, hcross]
    have h5 : 10 ^ (e - p) * q.den ≤ n * q.den := by
      rw [Nat.mul_comm]
      rw [← h3]
      exact h2
    have h4 : 10 ^ (e - p) ≤ n := Nat.le_of_mul_le_mul_right h5 hdpos
    have h6 : (10 : ℕ) ^ 12 ≤ 10 ^ (e - p) :=
      Nat.pow_le_pow_right (by omega) (by omega)
    exact absurd (lt_of_lt_of_le hn12 (le_trans h6 h4)) (lt_irrefl n)
  have hdvd_e : q.den ∣ 10 ^ e := by
    have h7 : ((q.den : ℕ) : ℤ) ∣ (((10 : ℕ) ^ e : ℕ) : ℤ) := by
      rw [hqe, Rat.mkRat_eq_divInt]
      exact Rat.den_dvd _ _
    exact_mod_cast h7
  have hdvd : q.den ∣ 10 ^ (p + 11) := dvd_trans hdvd_e (pow_dvd_pow 10 hep)
  have hdvdN : q.den ∣ q.num.toNat * 10 ^ (p + 11) := Dvd.dvd.mul_left hdvd _
  have hrem : (q.num.toNat * 10 ^ (p + 11)) % q.den = 0 :=
    Nat.mod_eq_zero_of_dvd hdvdN
  have hMr : rndHalfEven (q.num.toNat * 10 ^ (p + 11)) q.den =
      q.num.toNat * 10 ^ (p + 11) / q.den := rndHalfEven_exact hrem hdpos
  have hQden : q.num.toNat * 10 ^ (p + 11) / q.den * q.den =
      q.num.toNat * 10 ^ (p + 11) := Nat.div_mul_cancel hdvdN
  have hQpos : 0 < q.num.toNat * 10 ^ (p + 11) / q.den := by
    apply Nat.div_pos ?_ hdpos
    calc q.den ≤ q.num.toNat * 10 ^ p := hP
      _ ≤ q.num.toNat * 10 ^ (p + 11) :=
        Nat.mul_le_mul_left _ (Nat.pow_le_pow_right (by omega) (by omega))
  have hQub : q.num.toNat * 10 ^ (p + 11) / q.den ≤ 10 ^ (p + 11) := by
    have h8 : q.num.toNat * 10 ^ (p + 11) / q.den * q.den ≤
        10 ^ (p + 11) * q.den := by
      rw [hQden]
      calc q.num.toNat * 10 ^ (p + 11) ≤ q.den * 10 ^ (p + 11) :=
            Nat.mul_le_mul_right _ hnumden
        _ = 10 ^ (p + 11) * q.den := Nat.mul_comm _ _
    exact Nat.le_of_mul_le_mul_right h8 hdpos
  set Q : ℕ := q.num.toNat * 10 ^ (p + 11) / q.den with hQdef
  have hsplit : Q = (stripZeros 40 Q).1 * 10 ^ (stripZeros 40 Q).2 :=
    stripZeros_spec 40 Q
  have hM0 : 0 < (stripZeros 40 Q).1 := stripZeros_fst_pos hQpos
  have hps0 : pyStr q =
      if p + 11 - (stripZeros 40 Q).2 = 0 then
        natDigits (stripZeros 40 Q).1 ++ '.' :: ['0']
      else
        natDigits ((stripZeros 40 Q).1 / 10 ^ (p + 11 - (stripZeros 40 Q).2)) ++
          '.' :: padZeros (p + 11 - (stripZeros 40 Q).2)
            (natDigits ((stripZeros 40 Q).1 % 10 ^ (p + 11 - (stripZeros 40 Q).2))) := by
    unfold pyStr
    rw [hfind]
    show (let M := rndHalfEven (q.num.toNat * 10 ^ (p + 11)) q.den;
      let s := stripZeros 40 M;
      let k := p + 11 - s.2;
      if k = 0 then natDigits s.1 ++ ['.', '0']
      else natDigits (s.1 / 10 ^ k) ++
        '.' :: padZeros k (natDigits (s.1 % 10 ^ k))) = _
    rw [hMr]
  set M' : ℕ := (stripZeros 40 Q).1 with hMdef
  set t : ℕ := (stripZeros 40 Q).2 with htdef
  have ht_le : t ≤ p + 11 := by
    have h9 : (10 : ℕ) ^ t ≤ 10 ^ (p + 11) := by
      calc (10 : ℕ) ^ t = 1 * 10 ^ t := (one_mul _).symm
        _ ≤ M' * 10 ^ t := Nat.mul_le_mul_right _ hM0
        _ = Q := hsplit.symm
        _ ≤ 10 ^ (p + 11) := hQub
    exact (Nat.pow_le_pow_iff_right (by omega)).mp h9
  by_cases hk0 : p + 11 - t = 0
  · rw [if_pos hk0] at hps0
    have ht' : t = p + 11 := by omega
    have hMden : M' * q.den = q.num.toNat := by
      have h10 : M' * q.den * 10 ^ (p + 11) =
          q.num.toNat * 10 ^ (p + 11) := by
        calc M' * q.den * 10 ^ (p + 11) = M' * 10 ^ (p + 11) * q.den := by ring
          _ = M' * 10 ^ t * q.den := by rw [ht']
          _ = Q * q.den := by rw [← hsplit]
          _ = q.num.toNat * 10 ^ (p + 11) := hQden
      exact Nat.eq_of_mul_eq_mul_right (by positivity) h10
    have hadig := natDigits_all_digits M'
    have hnodot : '.' ∉ natDigits M' :=
      fun hmem => (digit_char_ne (hadig _ hmem)).2.1 rfl
    obtain ⟨d, tl, hcons⟩ := List.exists_cons_of_ne_nil (natDigits_ne_nil M')
    have ha_ne : (natDigits M').isEmpty = false := by rw [hcons]; rfl
    have hval : parseFloatC (pyStr q) =
        some (mkRat (natVal (natDigits M') *
          10 ^ (['0'] : List Char).length + natVal ['0'])
          (10 ^ (['0'] : List Char).length)) := by
      rw [hps0]
      exact parseFloatC_append_eval ha_ne (allDigitsB_natDigits _)
        (by decide) hnodot (by decide)
    have hMq : (M' : ℚ) = q := by
      have hc : (M' : ℚ) * (q.den : ℚ) = (q.num.toNat : ℚ) := by
        exact_mod_cast hMden
      rw [hnumQ, hb1] at hc
      exact mul_right_cancel₀ hdenne hc
    have hq' : mkRat ((natVal (natDigits M') *
        10 ^ (['0'] : List Char).length + natVal ['0'] : ℕ) : ℤ)
        (10 ^ (['0'] : List Char).length) = q := by
      rw [natVal_natDigits]
      rw [show natVal ['0'] = 0 from by decide]
      rw [show ((['0'] : List Char).length) = 1 from rfl]
      rw [mkRat_nat_eq_div]
      push_cast
      rw [hMq, add_zero, mul_div_assoc]
      norm_num
    refine ⟨by rw [hval]; exact congrArg some hq', ?_, ?_⟩
    · refine ⟨d, tl ++ '.' :: ['0'], by rw [hps0, hcons]; rfl, ?_⟩
      exact hadig d (by rw [hcons]; exact List.mem_cons_self _ _)
    · intro c hc
      rw [hps0] at hc
      rcases List.mem_append.mp hc with h | h
      · exact Or.inl (hadig c h)
      · rcases List.mem_cons.mp h with rfl | h2
        · exact Or.inr rfl
        · left
          have hc0 : c = '0' := by simpa using h2
          rw [hc0]
          decide
  · rw [if_neg hk0] at hps0
    have hkpos : 0 < p + 11 - t := Nat.pos_of_ne_zero hk0
    have hkt : t + (p + 11 - t) = p + 11 := by omega
    have hMden : M' * q.den = q.num.toNat * 10 ^ (p + 11 - t) := by
      have h10 : M' * q.den * 10 ^ t =
          q.num.toNat * 10 ^ (p + 11 - t) * 10 ^ t := by
        calc M' * q.den * 10 ^ t = M' * 10 ^ t * q.den := by ring
          _ = Q * q.den := by rw [← hsplit]
          _ = q.num.toNat * 10 ^ (p + 11) := hQden
          _ = q.num.toNat * 10 ^ (t + (p + 11 - t)) := by rw [hkt]
          _ = q.num.toNat * 10 ^ (p + 11 - t) * 10 ^ t := by
              rw [pow_add]; ring
      exact Nat.eq_of_mul_eq_mul_right (by positivity) h10
    have hkk : 0 < (10 : ℕ) ^ (p + 11 - t) := by positivity
    have hadig := natDigits_all_digits (M' / 10 ^ (p + 11 - t))
    have hbdig : allDigitsB (padZeros (p + 11 - t)
        (natDigits (M' % 10 ^ (p + 11 - t)))) = true :=
      allDigitsB_padZeros (allDigitsB_natDigits _)
    have hbdig' : ∀ c ∈ padZeros (p + 11 - t) (natDigits (M' % 10 ^ (p + 11 - t))),
        isDigitB c = true := by
      intro c hc
      unfold allDigitsB at hbdig
      exact List.all_eq_true.mp hbdig c hc
    have hnodot : '.' ∉ natDigits (M' / 10 ^ (p + 11 - t)) :=
      fun hmem => (digit_char_ne (hadig _ hmem)).2.1 rfl
    have hnodotb : '.' ∉ padZeros (p + 11 - t) (natDigits (M' % 10 ^ (p + 11 - t))) :=
      fun hmem => (digit_char_ne (hbdig' _ hmem)).2.1 rfl
    obtain ⟨d, tl, hcons⟩ :=
      List.exists_cons_of_ne_nil (natDigits_ne_nil (M' / 10 ^ (p + 11 - t)))
    have ha_ne : (natDigits (M' / 10 ^ (p + 11 - t))).isEmpty = false := by
      rw [hcons]; rfl
    have hblen : (padZeros (p + 11 - t)
        (natDigits (M' % 10 ^ (p + 11 - t)))).length = p + 11 - t := by
      apply padZeros_length
      exact natDigits_length_le _ (Nat.mod_lt _ hkk) (by omega)
    have hbval : natVal (padZeros (p + 11 - t) (natDigits (M' % 10 ^ (p + 11 - t)))) =
        M' % 10 ^ (p + 11 - t) := by
      rw [natVal_padZeros, natVal_natDigits]
    have hval : parseFloatC (pyStr q) =
        some (mkRat (natVal (natDigits (M' / 10 ^ (p + 11 - t))) *
          10 ^ (padZeros (p + 11 - t) (natDigits (M' % 10 ^ (p + 11 - t)))).length +
          natVal (padZeros (p + 11 - t) (natDigits (M' % 10 ^ (p + 11 - t)))))
          (10 ^ (padZeros (p + 11 - t) (natDigits (M' % 10 ^ (p + 11 - t)))).length)) := by
      rw [hps0]
      exact parseFloatC_append_eval ha_ne (allDigitsB_natDigits _) hbdig
        hnodot hnodotb
    have hMq : (M' : ℚ) = q * ((10 ^ (p + 11 - t) : ℕ) : ℚ) := by
      have hc : (M' : ℚ) * (q.den : ℚ) =
          (q.num.toNat : ℚ) * ((10 ^ (p + 11 - t) : ℕ) : ℚ) := by
        exact_mod_cast hMden
      rw [hnumQ, hb1] at hc
      have hc2 : (M' : ℚ) * (q.den : ℚ) =
          q * ((10 ^ (p + 11 - t) : ℕ) : ℚ) * (q.den : ℚ) := by
        rw [hc]; ring
      exact mul_right_cancel₀ hdenne hc2
    have hq' : mkRat ((natVal (natDigits (M' / 10 ^ (p + 11 - t))) *
        10 ^ (padZeros (p + 11 - t) (natDigits (M' % 10 ^ (p + 11 - t)))).length +
        natVal (padZeros (p + 11 - t) (natDigits (M' % 10 ^ (p + 11 - t)))) : ℕ) : ℤ)
        (10 ^ (padZeros (p + 11 - t) (natDigits (M' % 10 ^ (p + 11 - t)))).length) = q := by
      rw [natVal_natDigits, hbval, hblen, Nat.div_add_mod', mkRat_nat_eq_div]
      have hne : ((10 ^ (p + 11 - t) : ℕ) : ℚ) ≠ 0 := by positivity
      rw [hMq, mul_div_assoc, div_self hne, mul_one]
    have hargs : ((natVal (natDigits (M' / 10 ^ (p + 11 - t))) : ℤ) *
        10 ^ (padZeros (p + 11 - t) (natDigits (M' % 10 ^ (p + 11 - t)))).length +
        (natVal (padZeros (p + 11 - t) (natDigits (M' % 10 ^ (p + 11 - t)))) : ℤ)) =
        ((natVal (natDigits (M' / 10 ^ (p + 11 - t))) *
          10 ^ (padZeros (p + 11 - t) (natDigits (M' % 10 ^ (p + 11 - t)))).length +
          natVal (padZeros (p + 11 - t) (natDigits (M' % 10 ^ (p + 11 - t)))) : ℕ) : ℤ) := by
      push_cast
      ring
    refine ⟨by rw [hval, hargs]; exact congrArg some hq', ?_, ?_⟩
    · refine ⟨d, tl ++ '.' :: padZeros (p + 11 - t) (natDigits (M' % 10 ^ (p + 11 - t))),
        by rw [hps0, hcons]; rfl, ?_⟩
      exact hadig d (by rw [hcons]; exact List.mem_cons_self _ _)
    · intro c hc
      rw [hps0] at hc
      rcases List.mem_append.mp hc with h | h
      · exact Or.inl (hadig c h)
      · rcases List.mem_cons.mp h with rfl | h2
        · exact Or.inr rfl
        · exact Or.inl (hbdig' c h2)


/-! ## Lemmas: evaluating and inverting the descriptor decoder -/

theorem getIntOpt_eval {opts : List (List Char × List Char)}
    {key v : List Char} {n : Nat} (hl : lookupKV opts key = some v)
    (hp : parseNatC v = some n) : getIntOpt opts key = .ok n := by
  unfold getIntOpt
  simp only [hl, hp]

theorem getIntOpt_ok_lookup {opts : List (List Char × List Char)}
    {key : List Char} {n : Nat} (h : getIntOpt opts key = .ok n) :
    (lookupKV opts key).isSome = true := by
  unfold getIntOpt at h
  cases hl : lookupKV opts key with
  | none => rw [hl] at h; exact Except.noConfusion h
  | some v => rfl

theorem decode_block_string_eval (s : String) (k r i o e : Nat)
    (c0 c1 : Char) (s0 s1 : Nat) (se : Option ℚ)
    (hs : lookupKV (optionsOf s) ['s'] = some [c0, c1])
    (hk : getIntOpt (optionsOf s) ['k'] = .ok k)
    (hr : getIntOpt (optionsOf s) ['r'] = .ok r)
    (hi : getIntOpt (optionsOf s) ['i'] = .ok i)
    (ho : getIntOpt (optionsOf s) ['o'] = .ok o)
    (he : getIntOpt (optionsOf s) ['e'] = .ok e)
    (hse : getSeOpt (optionsOf s) = .ok se)
    (h0 : charToDigit? c0 = some s0)
    (h1 : charToDigit? c1 = some s1) :
    decode_block_string s = .ok
      { kernel_size := k, num_repeat := r, input_filters := i,
        output_filters := o, expand_ratio := e,
        id_skip := !(hasSub s.toList noskipChars),
        se_ratio := se, strides := (s0, s1) } := by
  unfold decode_block_string
  simp only [hs, hk, hr, hi, ho, he, hse, getDigit, h0, h1]

theorem decode_block_string_ok_inv {s : String} {d : BlockArgs}
    (h : decode_block_string s = .ok d) :
    (lookupKV (optionsOf s) ['s']).isSome = true ∧
    (lookupKV (optionsOf s) ['k']).isSome = true ∧
    (lookupKV (optionsOf s) ['r']).isSome = true ∧
    (lookupKV (optionsOf s) ['i']).isSome = true ∧
    (lookupKV (optionsOf s) ['o']).isSome = true ∧
    (lookupKV (optionsOf s) ['e']).isSome = true ∧
    d.id_skip = !(hasSub s.toList noskipChars) := by
  unfold decode_block_string at h
  cases hs : lookupKV (optionsOf s) ['s'] with
  | none => rw [hs] at h; exact Except.noConfusion h
  | some sv =>
    rw [hs] at h
    rcases sv with _ | ⟨c0, _ | ⟨c1, _ | ⟨c2, tl⟩⟩⟩
    · exact Except.noConfusion h
    · exact Except.noConfusion h
    · cases hk : getIntOpt (optionsOf s) ['k'] with
      | error er => simp only [hk] at h; exact Except.noConfusion h
      | ok k =>
        simp only [hk] at h
        cases hr : getIntOpt (optionsOf s) ['r'] with
        | error er => simp only [hr] at h; exact Except.noConfusion h
        | ok r =>
          simp only [hr] at h
          cases hi : getIntOpt (optionsOf s) ['i'] with
          | error er => simp only [hi] at h; exact Except.noConfusion h
          | ok i =>
            simp only [hi] at h
            cases ho : getIntOpt (optionsOf s) ['o'] with
            | error er => simp only [ho] at h; exact Except.noConfusion h
            | ok o =>
              simp only [ho] at h
              cases he : getIntOpt (optionsOf s) ['e'] with
              | error er => simp only [he] at h; exact Except.noConfusion h
              | ok e =>
                simp only [he] at h
                cases hget : getSeOpt (optionsOf s) with
                | error er => simp only [hget] at h; exact Except.noConfusion h
                | ok se =>
                  simp only [hget] at h
                  cases h0 : getDigit c0 with
                  | error er => simp only [h0] at h; exact Except.noConfusion h
                  | ok s0 =>
                    simp only [h0] at h
                    cases h1 : getDigit c1 with
                    | error er => simp only [h1] at h; exact Except.noConfusion h
                    | ok s1 =>
                      simp only [h1] at h
                      injection h with h2
                      subst h2
                      refine ⟨rfl, getIntOpt_ok_lookup hk,
                        getIntOpt_ok_lookup hr, getIntOpt_ok_lookup hi,
                        getIntOpt_ok_lookup ho, getIntOpt_ok_lookup he, rfl⟩
    · exact Except.noConfusion h

/-! ## Lemmas: evaluating the options of an encoded descriptor -/

theorem getSeOpt_of_none {opts : List (List Char × List Char)}
    (h : lookupKV opts ['s', 'e'] = none) : getSeOpt opts = .ok none := by
  unfold getSeOpt
  rw [h]

theorem getSeOpt_of_some {opts : List (List Char × List Char)}
    {v : List Char} {q : ℚ} (h : lookupKV opts ['s', 'e'] = some v)
    (hp : parseFloatC v = some q) : getSeOpt opts = .ok (some q) := by
  unfold getSeOpt
  simp only [h, hp]

theorem lastSplitValue_nil (k : List Char) : lastSplitValue [] k = none := rfl

theorem lastSplitValue_cons_eq (t : List Char) (rest : List (List Char))
    (k : List Char) :
    lastSplitValue (t :: rest) k =
      match lastSplitValue rest k with
      | some v => some v
      | none =>
        match splitKV t with
        | some (k', v) => if k' = k then some v else none
        | none => none := rfl

theorem lastSplitValue_cons_ne {t : List Char} {k : List Char}
    (rest : List (List Char))
    (h : ∀ k' v, splitKV t = some (k', v) → k' ≠ k) :
    lastSplitValue (t :: rest) k = lastSplitValue rest k := by
  rw [lastSplitValue_cons_eq]
  cases hrest : lastSplitValue rest k with
  | some w => rfl
  | none =>
    cases hkv : splitKV t with
    | none => rfl
    | some kv =>
      obtain ⟨k', v⟩ := kv
      show (if k' = k then some v else none) = none
      rw [if_neg (h k' v hkv)]

theorem lastSplitValue_cons_self {t : List Char} {k v : List Char}
    (rest : List (List Char)) (ht : splitKV t = some (k, v))
    (hrest : lastSplitValue rest k = none) :
    lastSplitValue (t :: rest) k = some v := by
  rw [lastSplitValue_cons_eq, hrest, ht]
  show (if k = k then some v else none) = some v
  rw [if_pos rfl]

theorem lastSplitValue_append (l₁ l₂ : List (List Char)) (k : List Char) :
    lastSplitValue (l₁ ++ l₂) k =
      match lastSplitValue l₂ k with
      | some v => some v
      | none => lastSplitValue l₁ k := by
  induction l₁ with
  | nil =>
    simp only [List.nil_append]
    cases hl2 : lastSplitValue l₂ k with
    | some v => rfl
    | none => rfl
  | cons t rest ih =>
    simp only [List.cons_append]
    rw [lastSplitValue_cons_eq, ih]
    cases hl2 : lastSplitValue l₂ k with
    | some v => rfl
    | none => rw [lastSplitValue_cons_eq]

theorem ne_of_splitKV {t k₀ v₀ : List Char} {key : List Char}
    (ht : splitKV t = some (k₀, v₀)) (hne : k₀ ≠ key) :
    ∀ k' v, splitKV t = some (k', v) → k' ≠ key := by
  intro k' v h
  rw [ht] at h
  injection h with h1
  cases h1
  exact hne

theorem ne_of_splitKV_none {t : List Char} {key : List Char}
    (ht : splitKV t = none) :
    ∀ k' v, splitKV t = some (k', v) → k' ≠ key := by
  intro k' v h
  rw [ht] at h
  exact Option.noConfusion h

theorem natDigits_head (n : Nat) :
    ∃ d0 r0, natDigits n = d0 :: r0 ∧ isDigitB d0 = true := by
  obtain ⟨d0, tl, h⟩ := List.exists_cons_of_ne_nil (natDigits_ne_nil n)
  refine ⟨d0, tl, h, natDigits_all_digits n d0 ?_⟩
  rw [h]
  exact List.mem_cons_self _ _

theorem natDigits_append_head (n : Nat) (l : List Char) :
    ∃ d0 r0, natDigits n ++ l = d0 :: r0 ∧ isDigitB d0 = true := by
  obtain ⟨d0, tl, h, hd⟩ := natDigits_head n
  exact ⟨d0, tl ++ l, by rw [h]; rfl, hd⟩

theorem splitKV_letter (c : Char) (hc : isDigitB c = false) (v : List Char)
    (hv : ∃ d0 r0, v = d0 :: r0 ∧ isDigitB d0 = true) :
    splitKV (c :: v) = some ([c], v) := by
  have h := @splitKV_of_keyval [c] v
    (by
      intro x hx
      rcases List.mem_cons.mp hx with rfl | hx2
      · exact hc
      · simp at hx2)
    hv
  simpa using h

theorem splitKV_noskip : splitKV noskipChars = none := by decide

/-! ## Lemmas: character classes of encoded tokens -/

theorem joinWith_chars {sep : Char} :
    ∀ {parts : List (List Char)} {c : Char}, c ∈ joinWith sep parts →
      c = sep ∨ ∃ p ∈ parts, c ∈ p := by
  intro parts
  induction parts with
  | nil => intro c hc; simp [joinWith] at hc
  | cons a rest ih =>
    intro c hc
    match rest with
    | [] =>
      refine Or.inr ⟨a, List.mem_cons_self _ _, ?_⟩
      simpa [joinWith] using hc
    | b :: rest2 =>
      have hj : joinWith sep (a :: b :: rest2) =
          a ++ sep :: joinWith sep (b :: rest2) := rfl
      rw [hj] at hc
      rcases List.mem_append.mp hc with h | h
      · exact Or.inr ⟨a, List.mem_cons_self _ _, h⟩
      · rcases List.mem_cons.mp h with rfl | h2
        · exact Or.inl rfl
        · rcases ih h2 with h3 | ⟨p, hp, hcp⟩
          · exact Or.inl h3
          · exact Or.inr ⟨p, List.mem_cons_of_mem _ hp, hcp⟩

set_option maxRecDepth 4096 in
/-- Every character of the first six tokens and of the optional `se` token
is one of the key letters, a dot, or a digit. -/
theorem frontSe_chars (b : BlockArgs)
    (hse : match b.se_ratio with
           | none => True
           | some q => 0 < q ∧ q ≤ 1 ∧ decimal12 q) :
    ∀ t ∈ frontTokens b ++ seTokens b, ∀ c ∈ t,
      c = 'r' ∨ c = 'k' ∨ c = 's' ∨ c = 'e' ∨ c = 'i' ∨ c = 'o' ∨
        c = '.' ∨ isDigitB c = true := by
  intro t ht c hc
  rcases List.mem_append.mp ht with hf | hs
  · have hf' : t = 'r' :: natDigits b.num_repeat ∨
        t = 'k' :: natDigits b.kernel_size ∨
        t = 's' :: (natDigits b.strides.1 ++ natDigits b.strides.2) ∨
        t = 'e' :: natDigits b.expand_ratio ∨
        t = 'i' :: natDigits b.input_filters ∨
        t = 'o' :: natDigits b.output_filters := by
      simpa [frontTokens] using hf
    rcases hf' with rfl | rfl | rfl | rfl | rfl | rfl <;>
      rcases List.mem_cons.mp hc with rfl | h2
    · exact Or.inl rfl
    · exact Or.inr (Or.inr (Or.inr (Or.inr (Or.inr (Or.inr (Or.inr
        (natDigits_all_digits _ c h2)))))))
    · exact Or.inr (Or.inl rfl)
    · exact Or.inr (Or.inr (Or.inr (Or.inr (Or.inr (Or.inr (Or.inr
        (natDigits_all_digits _ c h2)))))))
    · exact Or.inr (Or.inr (Or.inl rfl))
    · rcases List.mem_append.mp h2 with h3 | h3
      · exact Or.inr (Or.inr (Or.inr (Or.inr (Or.inr (Or.inr (Or.inr
          (natDigits_all_digits _ c h3)))))))
      · exact Or.inr (Or.inr (Or.inr (Or.inr (Or.inr (Or.inr (Or.inr
          (natDigits_all_digits _ c h3)))))))
    · exact Or.inr (Or.inr (Or.inr (Or.inl rfl)))
    · exact Or.inr (Or.inr (Or.inr (Or.inr (Or.inr (Or.inr (Or.inr
        (natDigits_all_digits _ c h2)))))))
    · exact Or.inr (Or.inr (Or.inr (Or.inr (Or.inl rfl))))
    · exact Or.inr (Or.inr (Or.inr (Or.inr (Or.inr (Or.inr (Or.inr
        (natDigits_all_digits _ c h2)))))))
    · exact Or.inr (Or.inr (Or.inr (Or.inr (Or.inr (Or.inl rfl)))))
    · exact Or.inr (Or.inr (Or.inr (Or.inr (Or.inr (Or.inr (Or.inr
        (natDigits_all_digits _ c h2)))))))
  · unfold seTokens at hs
    cases hq : b.se_ratio with
    | none =>
      rw [hq] at hs
      simp at hs
    | some q =>
      simp only [hq] at hse
      obtain ⟨hq1, hq2, hq3⟩ := hse
      rw [hq] at hs
      have hs2 : t ∈ (if 0 < q ∧ q ≤ 1 then [['s', 'e'] ++ pyStr q]
          else []) := hs
      rw [if_pos (And.intro hq1 hq2)] at hs2
      have ht' : t = ['s', 'e'] ++ pyStr q := by simpa using hs2
      subst ht'
      rcases List.mem_append.mp hc with h3 | h3
      · rcases List.mem_cons.mp h3 with rfl | h4
        · exact Or.inr (Or.inr (Or.inl rfl))
        · have : c = 'e' := by simpa using h4
          subst this
          exact Or.inr (Or.inr (Or.inr (Or.inl rfl)))
      · obtain ⟨-, -, hclass⟩ := pyStr_parse q hq1 hq2 hq3
        rcases hclass c h3 with h5 | h5
        · exact Or.inr (Or.inr (Or.inr (Or.inr (Or.inr (Or.inr (Or.inr h5))))))
        · exact Or.inr (Or.inr (Or.inr (Or.inr (Or.inr (Or.inr (Or.inl h5))))))

theorem frontSe_no_underscore (b : BlockArgs)
    (hse : match b.se_ratio with
           | none => True
           | some q => 0 < q ∧ q ≤ 1 ∧ decimal12 q) :
    ∀ t ∈ frontTokens b ++ seTokens b, ('_' : Char) ∉ t := by
  intro t ht hmem
  rcases frontSe_chars b hse t ht '_' hmem with
    h | h | h | h | h | h | h | h
  · exact absurd h (by decide)
  · exact absurd h (by decide)
  · exact absurd h (by decide)
  · exact absurd h (by decide)
  · exact absurd h (by decide)
  · exact absurd h (by decide)
  · exact absurd h (by decide)
  · exact absurd rfl (digit_char_ne h).1

theorem frontSe_no_n (b : BlockArgs)
    (hse : match b.se_ratio with
           | none => True
           | some q => 0 < q ∧ q ≤ 1 ∧ decimal12 q) :
    ∀ t ∈ frontTokens b ++ seTokens b, ∀ c ∈ t, c ≠ 'n' := by
  intro t ht c hc
  rcases frontSe_chars b hse t ht c hc with
    h | h | h | h | h | h | h | h
  · subst h; decide
  · subst h; decide
  · subst h; decide
  · subst h; decide
  · subst h; decide
  · subst h; decide
  · subst h; decide
  · exact (digit_char_ne h).2.2

theorem encodeArgs_no_underscore (b : BlockArgs)
    (hse : match b.se_ratio with
           | none => True
           | some q => 0 < q ∧ q ≤ 1 ∧ decimal12 q) :
    ∀ t ∈ encodeArgs b, ('_' : Char) ∉ t := by
  intro t ht
  unfold encodeArgs at ht
  rw [List.append_assoc] at ht
  rcases List.mem_append.mp (by rw [← List.append_assoc] at ht; exact ht) with
    h | h
  · exact frontSe_no_underscore b hse t h
  · unfold skipTokens at h
    by_cases hskip : b.id_skip = false
    · rw [if_pos hskip] at h
      have : t = noskipChars := by simpa using h
      subst this
      decide
    · rw [if_neg hskip] at h
      simp at h

theorem joinWith_append_last {sep : Char} :
    ∀ (l : List (List Char)) (a : List Char), l ≠ [] →
      joinWith sep (l ++ [a]) = joinWith sep l ++ sep :: a := by
  intro l
  induction l with
  | nil => intro a h; exact absurd rfl h
  | cons x rest ih =>
    intro a _
    match rest with
    | [] => rfl
    | y :: rest2 =>
      have h1 : joinWith sep ((x :: y :: rest2) ++ [a]) =
          x ++ sep :: joinWith sep ((y :: rest2) ++ [a]) := rfl
      rw [h1, ih a (by simp)]
      simp [joinWith, List.append_assoc]

/-! ## The round-trip: decoding an encoded descriptor -/

set_option maxRecDepth 4096 in
/-- Decoding the encoding of a descriptor satisfying the stated invariants
recovers the descriptor exactly. -/
theorem decode_encode_roundtrip (d : BlockArgs) (hv : ValidBlock d) :
    decode_block_string (encode_block_string d) = .ok d := by
  obtain ⟨h1, h2, h3, h4, h5, hstr1, hstr2, hseV⟩ := hv
  -- splitting the six fixed tokens at their first digit
  have h_tr : splitKV ('r' :: natDigits d.num_repeat) =
      some (['r'], natDigits d.num_repeat) :=
    splitKV_letter 'r' (by decide) _ (natDigits_head _)
  have h_tk : splitKV ('k' :: natDigits d.kernel_size) =
      some (['k'], natDigits d.kernel_size) :=
    splitKV_letter 'k' (by decide) _ (natDigits_head _)
  have h_ts : splitKV ('s' :: (natDigits d.strides.1 ++ natDigits d.strides.2)) =
      some (['s'], natDigits d.strides.1 ++ natDigits d.strides.2) :=
    splitKV_letter 's' (by decide) _ (natDigits_append_head _ _)
  have h_te : splitKV ('e' :: natDigits d.expand_ratio) =
      some (['e'], natDigits d.expand_ratio) :=
    splitKV_letter 'e' (by decide) _ (natDigits_head _)
  have h_ti : splitKV ('i' :: natDigits d.input_filters) =
      some (['i'], natDigits d.input_filters) :=
    splitKV_letter 'i' (by decide) _ (natDigits_head _)
  have h_to : splitKV ('o' :: natDigits d.output_filters) =
      some (['o'], natDigits d.output_filters) :=
    splitKV_letter 'o' (by decide) _ (natDigits_head _)
  -- single-digit strides
  have hsd1 : natDigits d.strides.1 = [digitChar d.strides.1] :=
    natDigits_lt10 (by omega)
  have hsd2 : natDigits d.strides.2 = [digitChar d.strides.2] :=
    natDigits_lt10 (by omega)
  -- the options reachable from the six fixed tokens
  have hfront_r : lastSplitValue (frontTokens d) ['r'] =
      some (natDigits d.num_repeat) := by
    unfold frontTokens
    exact lastSplitValue_cons_self _ h_tr (by
      rw [lastSplitValue_cons_ne _ (ne_of_splitKV h_tk (by decide)),
        lastSplitValue_cons_ne _ (ne_of_splitKV h_ts (by decide)),
        lastSplitValue_cons_ne _ (ne_of_splitKV h_te (by decide)),
        lastSplitValue_cons_ne _ (ne_of_splitKV h_ti (by decide)),
        lastSplitValue_cons_ne _ (ne_of_splitKV h_to (by decide)),
        lastSplitValue_nil])
  have hfront_k : lastSplitValue (frontTokens d) ['k'] =
      some (natDigits d.kernel_size) := by
    unfold frontTokens
    rw [lastSplitValue_cons_ne _ (ne_of_splitKV h_tr (by decide))]
    exact lastSplitValue_cons_self _ h_tk (by
      rw [lastSplitValue_cons_ne _ (ne_of_splitKV h_ts (by decide)),
        lastSplitValue_cons_ne _ (ne_of_splitKV h_te (by decide)),
        lastSplitValue_cons_ne _ (ne_of_splitKV h_ti (by decide)),
        lastSplitValue_cons_ne _ (ne_of_splitKV h_to (by decide)),
        lastSplitValue_nil])
  have hfront_s : lastSplitValue (frontTokens d) ['s'] =
      some [digitChar d.strides.1, digitChar d.strides.2] := by
    unfold frontTokens
    rw [lastSplitValue_cons_ne _ (ne_of_splitKV h_tr (by decide)),
      lastSplitValue_cons_ne _ (ne_of_splitKV h_tk (by decide)),
      lastSplitValue_cons_self _ h_ts (by
        rw [lastSplitValue_cons_ne _ (ne_of_splitKV h_te (by decide)),
          lastSplitValue_cons_ne _ (ne_of_splitKV h_ti (by decide)),
          lastSplitValue_cons_ne _ (ne_of_splitKV h_to (by decide)),
          lastSplitValue_nil]),
      hsd1, hsd2]
    rfl
  have hfront_e : lastSplitValue (frontTokens d) ['e'] =
      some (natDigits d.expand_ratio) := by
    unfold frontTokens
    rw [lastSplitValue_cons_ne _ (ne_of_splitKV h_tr (by decide)),
      lastSplitValue_cons_ne _ (ne_of_splitKV h_tk (by decide)),
      lastSplitValue_cons_ne _ (ne_of_splitKV h_ts (by decide))]
    exact lastSplitValue_cons_self _ h_te (by
      rw [lastSplitValue_cons_ne _ (ne_of_splitKV h_ti (by decide)),
        lastSplitValue_cons_ne _ (ne_of_splitKV h_to (by decide)),
        lastSplitValue_nil])
  have hfront_i : lastSplitValue (frontTokens d) ['i'] =
      some (natDigits d.input_filters) := by
    unfold frontTokens
    rw [lastSplitValue_cons_ne _ (ne_of_splitKV h_tr (by decide)),
      lastSplitValue_cons_ne _ (ne_of_splitKV h_tk (by decide)),
      lastSplitValue_cons_ne _ (ne_of_splitKV h_ts (by decide)),
      lastSplitValue_cons_ne _ (ne_of_splitKV h_te (by decide))]
    exact lastSplitValue_cons_self _ h_ti (by
      rw [lastSplitValue_cons_ne _ (ne_of_splitKV h_to (by decide)),
        lastSplitValue_nil])
  have hfront_o : lastSplitValue (frontTokens d) ['o'] =
      some (natDigits d.output_filters) := by
    unfold frontTokens
    rw [lastSplitValue_cons_ne _ (ne_of_splitKV h_tr (by decide)),
      lastSplitValue_cons_ne _ (ne_of_splitKV h_tk (by decide)),
      lastSplitValue_cons_ne _ (ne_of_splitKV h_ts (by decide)),
      lastSplitValue_cons_ne _ (ne_of_splitKV h_te (by decide)),
      lastSplitValue_cons_ne _ (ne_of_splitKV h_ti (by decide))]
    exact lastSplitValue_cons_self _ h_to rfl
  have hfront_se : lastSplitValue (frontTokens d) ['s', 'e'] = none := by
    unfold frontTokens
    rw [lastSplitValue_cons_ne _ (ne_of_splitKV h_tr (by decide)),
      lastSplitValue_cons_ne _ (ne_of_splitKV h_tk (by decide)),
      lastSplitValue_cons_ne _ (ne_of_splitKV h_ts (by decide)),
      lastSplitValue_cons_ne _ (ne_of_splitKV h_te (by decide)),
      lastSplitValue_cons_ne _ (ne_of_splitKV h_ti (by decide)),
      lastSplitValue_cons_ne _ (ne_of_splitKV h_to (by decide)),
      lastSplitValue_nil]
  -- the skip suffix never contributes a key
  have hskipKey : ∀ key, lastSplitValue (skipTokens d) key = none := by
    intro key
    unfold skipTokens
    by_cases hsk : d.id_skip = false
    · rw [if_pos hsk,
        lastSplitValue_cons_ne _ (ne_of_splitKV_none splitKV_noskip),
        lastSplitValue_nil]
    · rw [if_neg hsk, lastSplitValue_nil]
  -- the whole token list and its split
  have htok : splitOnCh '_' (encode_block_string d).toList = encodeArgs d := by
    have hjoin : (encode_block_string d).toList = joinWith '_' (encodeArgs d) := rfl
    rw [hjoin]
    apply splitOnCh_joinWith
    · unfold encodeArgs frontTokens
      simp
    · exact fun p hp => encodeArgs_no_underscore d hseV p hp
  have hopt : ∀ key, lookupKV (optionsOf (encode_block_string d)) key =
      match lastSplitValue (encodeArgs d) key with
      | some v => some v
      | none => none := by
    intro key
    unfold optionsOf
    rw [htok, lookupKV_buildOptions]
  have hassoc : encodeArgs d =
      frontTokens d ++ (seTokens d ++ skipTokens d) := by
    unfold encodeArgs
    rw [List.append_assoc]
  -- facts about the optional se token
  have hseTok : ∀ q, d.se_ratio = some q →
      splitKV (['s', 'e'] ++ pyStr q) = some (['s', 'e'], pyStr q) := by
    intro q hqc
    have hseV2 := hseV
    simp only [hqc] at hseV2
    obtain ⟨hq1, hq2, hq3⟩ := hseV2
    obtain ⟨-, hhead, -⟩ := pyStr_parse q hq1 hq2 hq3
    exact splitKV_of_keyval (by decide) hhead
  have hparseSe : ∀ q, d.se_ratio = some q →
      parseFloatC (pyStr q) = some q := by
    intro q hqc
    have hseV2 := hseV
    simp only [hqc] at hseV2
    obtain ⟨hq1, hq2, hq3⟩ := hseV2
    exact (pyStr_parse q hq1 hq2 hq3).1
  have hsecond : ∀ q, d.se_ratio = some q →
      seTokens d = [['s', 'e'] ++ pyStr q] := by
    intro q hqc
    have hseV2 := hseV
    simp only [hqc] at hseV2
    unfold seTokens
    simp only [hqc]
    rw [if_pos (And.intro hseV2.1 hseV2.2.1)]
  have hseno : d.se_ratio = none → seTokens d = [] := by
    intro hqc
    unfold seTokens
    simp only [hqc]
  -- lookups that miss the optional suffix
  have hsuf_none : ∀ key : List Char, key ≠ ['s', 'e'] →
      lastSplitValue (seTokens d ++ skipTokens d) key = none := by
    intro key hne
    rw [lastSplitValue_append, hskipKey key]
    show lastSplitValue (seTokens d) key = none
    cases hqc : d.se_ratio with
    | none => rw [hseno hqc, lastSplitValue_nil]
    | some q =>
      rw [hsecond q hqc,
        lastSplitValue_cons_ne _ (ne_of_splitKV (hseTok q hqc) (Ne.symm hne)),
        lastSplitValue_nil]
  have hsuf_se_none : d.se_ratio = none →
      lastSplitValue (seTokens d ++ skipTokens d) ['s', 'e'] = none := by
    intro hqc
    rw [lastSplitValue_append, hskipKey]
    show lastSplitValue (seTokens d) ['s', 'e'] = none
    rw [hseno hqc, lastSplitValue_nil]
  have hsuf_se_some : ∀ q, d.se_ratio = some q →
      lastSplitValue (seTokens d ++ skipTokens d) ['s', 'e'] =
        some (pyStr q) := by
    intro q hqc
    rw [lastSplitValue_append, hskipKey]
    show lastSplitValue (seTokens d) ['s', 'e'] = some (pyStr q)
    rw [hsecond q hqc]
    exact lastSplitValue_cons_self _ (hseTok q hqc) (lastSplitValue_nil _)
  -- the options of the encoded string
  have hlook : ∀ (key v : List Char), key ≠ ['s', 'e'] →
      lastSplitValue (frontTokens d) key = some v →
      lookupKV (optionsOf (encode_block_string d)) key = some v := by
    intro key v hne hf
    rw [hopt key, hassoc, lastSplitValue_append, hsuf_none key hne, hf]
  have hK : getIntOpt (optionsOf (encode_block_string d)) ['k'] =
      .ok d.kernel_size :=
    getIntOpt_eval (hlook _ _ (by decide) hfront_k) (parseNatC_natDigits _)
  have hR : getIntOpt (optionsOf (encode_block_string d)) ['r'] =
      .ok d.num_repeat :=
    getIntOpt_eval (hlook _ _ (by decide) hfront_r) (parseNatC_natDigits _)
  have hI : getIntOpt (optionsOf (encode_block_string d)) ['i'] =
      .ok d.input_filters :=
    getIntOpt_eval (hlook _ _ (by decide) hfront_i) (parseNatC_natDigits _)
  have hO : getIntOpt (optionsOf (encode_block_string d)) ['o'] =
      .ok d.output_filters :=
    getIntOpt_eval (hlook _ _ (by decide) hfront_o) (parseNatC_natDigits _)
  have hE : getIntOpt (optionsOf (encode_block_string d)) ['e'] =
      .ok d.expand_ratio :=
    getIntOpt_eval (hlook _ _ (by decide) hfront_e) (parseNatC_natDigits _)
  have hS : lookupKV (optionsOf (encode_block_string d)) ['s'] =
      some [digitChar d.strides.1, digitChar d.strides.2] :=
    hlook _ _ (by decide) hfront_s
  have hSE : getSeOpt (optionsOf (encode_block_string d)) =
      .ok d.se_ratio := by
    cases hqc : d.se_ratio with
    | none =>
      apply getSeOpt_of_none
      rw [hopt, hassoc, lastSplitValue_append, hsuf_se_none hqc, hfront_se]
    | some q =>
      refine getSeOpt_of_some ?_ (hparseSe q hqc)
      rw [hopt, hassoc, lastSplitValue_append, hsuf_se_some q hqc]
  have hD1 : charToDigit? (digitChar d.strides.1) = some d.strides.1 :=
    charToDigit?_digitChar (by omega)
  have hD2 : charToDigit? (digitChar d.strides.2) = some d.strides.2 :=
    charToDigit?_digitChar (by omega)
  have heval := decode_block_string_eval (encode_block_string d)
    d.kernel_size d.num_repeat d.input_filters d.output_filters
    d.expand_ratio (digitChar d.strides.1) (digitChar d.strides.2)
    d.strides.1 d.strides.2 d.se_ratio hS hK hR hI hO hE hSE hD1 hD2
  rw [heval]
  -- the id_skip flag survives the trip
  have hskipEq :
      (!(hasSub (encode_block_string d).toList noskipChars)) = d.id_skip := by
    have hjoin : (encode_block_string d).toList =
        joinWith '_' (encodeArgs d) := rfl
    rw [hjoin]
    cases hsk : d.id_skip with
    | true =>
      have hsknil : skipTokens d = [] := by
        unfold skipTokens
        rw [if_neg (by simp [hsk])]
      have hargs : encodeArgs d = frontTokens d ++ seTokens d := by
        unfold encodeArgs
        rw [hsknil, List.append_nil]
      rw [hargs, hasSub_noskip_eq_false (by
        intro c hc
        rcases joinWith_chars hc with rfl | ⟨p, hp, hcp⟩
        · decide
        · exact frontSe_no_n d hseV p hp c hcp)]
      rfl
    | false =>
      have hsk1 : skipTokens d = [noskipChars] := by
        unfold skipTokens
        rw [if_pos hsk]
      have hargs : encodeArgs d =
          (frontTokens d ++ seTokens d) ++ [noskipChars] := by
        unfold encodeArgs
        rw [hsk1]
      rw [hargs, joinWith_append_last _ _ (by
        unfold frontTokens
        simp)]
      have hshift : joinWith '_' (frontTokens d ++ seTokens d) ++
          '_' :: noskipChars =
          (joinWith '_' (frontTokens d ++ seTokens d) ++ ['_']) ++
            noskipChars := by
        rw [List.append_assoc]
        rfl
      rw [hshift, hasSub_noskip_of_endsWith]
      rfl
  rw [hskipEq]

/-! ## Lemmas: list decoding -/

theorem decode_cons_eq (s : String) (rest : List String) :
    decode (s :: rest) =
      match decode_block_string s with
      | .error e => .error e
      | .ok b =>
        match decode rest with
        | .error e => .error e
        | .ok bs => .ok (b :: bs) := rfl

theorem decode_encode_list (l : List BlockArgs)
    (h : ∀ d ∈ l, ValidBlock d) : decode (encode l) = .ok l := by
  induction l with
  | nil => rfl
  | cons d rest ih =>
    have hd := h d (List.mem_cons_self _ _)
    have hrest := ih (fun x hx => h x (List.mem_cons_of_mem _ hx))
    show decode (encode_block_string d :: encode rest) = .ok (d :: rest)
    rw [decode_cons_eq, decode_encode_roundtrip d hd, hrest]

theorem decode_prefix_error (pre : List String) :
    ∀ (bs : List BlockArgs), decode pre = .ok bs →
    ∀ (s : String) (e : DecodeErr) (post : List String),
      decode_block_string s = .error e →
      decode (pre ++ s :: post) = .error e := by
  induction pre with
  | nil =>
    intro bs _ s e post hs
    show decode (s :: post) = .error e
    rw [decode_cons_eq, hs]
  | cons t rest ih =>
    intro bs hpre s e post hs
    rw [decode_cons_eq] at hpre
    cases ht : decode_block_string t with
    | error er => rw [ht] at hpre; exact Except.noConfusion hpre
    | ok b =>
      rw [ht] at hpre
      cases hrest : decode rest with
      | error er => rw [hrest] at hpre; exact Except.noConfusion hpre
      | ok bs2 =>
        show decode (t :: (rest ++ s :: post)) = .error e
        rw [decode_cons_eq, ht, ih bs2 hrest s e post hs]

/-! ## Lemmas: global-parameter overrides -/

theorem getField_set_bnm (gp : GlobalParams) (v : PyVal) :
    ∀ name, getField { gp with batch_norm_momentum := v } name =
      if name = "batch_norm_momentum" then some v else getField gp name := by
  intro name
  by_cases hn : name = "batch_norm_momentum"
  · subst hn
    rw [if_pos rfl]
    rfl
  · rw [if_neg hn]
    unfold getField
    rw [if_neg hn, if_neg hn]

theorem getField_set_bne (gp : GlobalParams) (v : PyVal) :
    ∀ name, getField { gp with batch_norm_epsilon := v } name =
      if name = "batch_norm_epsilon" then some v else getField gp name := by
  intro name
  by_cases hn : name = "batch_norm_epsilon"
  · subst hn
    rw [if_pos rfl]
    rfl
  · rw [if_neg hn]
    unfold getField
    rw [if_neg hn, if_neg hn]

theorem getField_set_dr (gp : GlobalParams) (v : PyVal) :
    ∀ name, getField { gp with dropout_rate := v } name =
      if name = "dropout_rate" then some v else getField gp name := by
  intro name
  by_cases hn : name = "dropout_rate"
  · subst hn
    rw [if_pos rfl]
    rfl
  · rw [if_neg hn]
    unfold getField
    rw [if_neg hn, if_neg hn]

theorem getField_set_df (gp : GlobalParams) (v : PyVal) :
    ∀ name, getField { gp with data_format := v } name =
      if name = "data_format" then some v else getField gp name := by
  intro name
  by_cases hn : name = "data_format"
  · subst hn
    rw [if_pos rfl]
    rfl
  · rw [if_neg hn]
    unfold getField
    rw [if_neg hn, if_neg hn]

theorem getField_set_nc (gp : GlobalParams) (v : PyVal) :
    ∀ name, getField { gp with num_classes := v } name =
      if name = "num_classes" then some v else getField gp name := by
  intro name
  by_cases hn : name = "num_classes"
  · subst hn
    rw [if_pos rfl]
    rfl
  · rw [if_neg hn]
    unfold getField
    rw [if_neg hn, if_neg hn]

theorem getField_set_dm (gp : GlobalParams) (v : PyVal) :
    ∀ name, getField { gp with depth_multiplier := v } name =
      if name = "depth_multiplier" then some v else getField gp name := by
  intro name
  by_cases hn : name = "depth_multiplier"
  · subst hn
    rw [if_pos rfl]
    rfl
  · rw [if_neg hn]
    unfold getField
    rw [if_neg hn, if_neg hn]

theorem getField_set_dd (gp : GlobalParams) (v : PyVal) :
    ∀ name, getField { gp with depth_divisor := v } name =
      if name = "depth_divisor" then some v else getField gp name := by
  intro name
  by_cases hn : name = "depth_divisor"
  · subst hn
    rw [if_pos rfl]
    rfl
  · rw [if_neg hn]
    unfold getField
    rw [if_neg hn, if_neg hn]

theorem getField_set_er (gp : GlobalParams) (v : PyVal) :
    ∀ name, getField { gp with expratio := v } name =
      if name = "expratio" then some v else getField gp name := by
  intro name
  by_cases hn : name = "expratio"
  · subst hn
    rw [if_pos rfl]
    rfl
  · rw [if_neg hn]
    unfold getField
    rw [if_neg hn, if_neg hn]

theorem getField_set_kn (gp : GlobalParams) (v : PyVal) :
    ∀ name, getField { gp with kernel := v } name =
      if name = "kernel" then some v else getField gp name := by
  intro name
  by_cases hn : name = "kernel"
  · subst hn
    rw [if_pos rfl]
    rfl
  · rw [if_neg hn]
    unfold getField
    rw [if_neg hn, if_neg hn]

theorem getField_set_md (gp : GlobalParams) (v : PyVal) :
    ∀ name, getField { gp with min_depth := v } name =
      if name = "min_depth" then some v else getField gp name := by
  intro name
  by_cases hn : name = "min_depth"
  · subst hn
    rw [if_pos rfl]
    rfl
  · rw [if_neg hn]
    unfold getField
    rw [if_neg hn, if_neg hn]

/-- A key naming an existing field replaces exactly that field and leaves
every other field unchanged. -/
theorem replaceOne_spec (gp : GlobalParams) (v : PyVal) {k : String}
    (h : k ∈ fieldNames) :
    ∃ gp', replaceOne gp k v = some gp' ∧
      ∀ name, getField gp' name =
        if name = k then some v else getField gp name := by
  unfold fieldNames at h
  fin_cases h
  · exact ⟨{ gp with batch_norm_momentum := v }, rfl, getField_set_bnm gp v⟩
  · exact ⟨{ gp with batch_norm_epsilon := v }, rfl, getField_set_bne gp v⟩
  · exact ⟨{ gp with dropout_rate := v }, rfl, getField_set_dr gp v⟩
  · exact ⟨{ gp with data_format := v }, rfl, getField_set_df gp v⟩
  · exact ⟨{ gp with num_classes := v }, rfl, getField_set_nc gp v⟩
  · exact ⟨{ gp with depth_multiplier := v }, rfl, getField_set_dm gp v⟩
  · exact ⟨{ gp with depth_divisor := v }, rfl, getField_set_dd gp v⟩
  · exact ⟨{ gp with expratio := v }, rfl, getField_set_er gp v⟩
  · exact ⟨{ gp with kernel := v }, rfl, getField_set_kn gp v⟩
  · exact ⟨{ gp with min_depth := v }, rfl, getField_set_md gp v⟩

/-- A key naming no field is rejected by the copy-with-replacement. -/
theorem replaceOne_none {gp : GlobalParams} {k : String} {v : PyVal}
    (h : k ∉ fieldNames) : replaceOne gp k v = none := by
  have hn1 : ¬ k = "batch_norm_momentum" := fun hh => h (by rw [hh]; decide)
  have hn2 : ¬ k = "batch_norm_epsilon" := fun hh => h (by rw [hh]; decide)
  have hn3 : ¬ k = "dropout_rate" := fun hh => h (by rw [hh]; decide)
  have hn4 : ¬ k = "data_format" := fun hh => h (by rw [hh]; decide)
  have hn5 : ¬ k = "num_classes" := fun hh => h (by rw [hh]; decide)
  have hn6 : ¬ k = "depth_multiplier" := fun hh => h (by rw [hh]; decide)
  have hn7 : ¬ k = "depth_divisor" := fun hh => h (by rw [hh]; decide)
  have hn8 : ¬ k = "expratio" := fun hh => h (by rw [hh]; decide)
  have hn9 : ¬ k = "kernel" := fun hh => h (by rw [hh]; decide)
  have hn10 : ¬ k = "min_depth" := fun hh => h (by rw [hh]; decide)
  unfold replaceOne
  rw [if_neg hn1, if_neg hn2, if_neg hn3, if_neg hn4, if_neg hn5, if_neg hn6,
    if_neg hn7, if_neg hn8, if_neg hn9, if_neg hn10]

theorem ovLookup_append (l₁ l₂ : List (String × PyVal)) (k : String) :
    ovLookup (l₁ ++ l₂) k =
      match ovLookup l₁ k with
      | some v => some v
      | none => ovLookup l₂ k := by
  induction l₁ with
  | nil => rfl
  | cons p rest ih =>
    obtain ⟨k', v⟩ := p
    have he1 : ovLookup (((k', v) :: rest) ++ l₂) k =
        if k' = k then some v else ovLookup (rest ++ l₂) k := rfl
    have he2 : ovLookup ((k', v) :: rest) k =
        if k' = k then some v else ovLookup rest k := rfl
    rw [he1, he2]
    by_cases h : k' = k
    · rw [if_pos h, if_pos h]
    · rw [if_neg h, if_neg h, ih]

theorem applyOverrides_all_fields :
    ∀ (ov : List (String × PyVal)) (gp : GlobalParams),
      (∀ kv ∈ ov, kv.1 ∈ fieldNames) →
      ∃ gp', applyOverrides gp ov = .ok gp' ∧
        ∀ name, getField gp' name =
          match ovLookup ov.reverse name with
          | some v => some v
          | none => getField gp name := by
  intro ov
  induction ov with
  | nil =>
    intro gp _
    exact ⟨gp, rfl, fun name => rfl⟩
  | cons kv rest ih =>
    intro gp hall
    obtain ⟨k, v⟩ := kv
    have hk : k ∈ fieldNames := hall (k, v) (List.mem_cons_self _ _)
    obtain ⟨gp1, hgp1, hfield1⟩ := replaceOne_spec gp v hk
    have happ : applyOverrides gp ((k, v) :: rest) =
        applyOverrides gp1 rest := by
      show (match replaceOne gp k v with
            | some gp' => applyOverrides gp' rest
            | none => .error k) = _
      rw [hgp1]
    obtain ⟨gp', hgp', hfields⟩ :=
      ih gp1 (fun x hx => hall x (List.mem_cons_of_mem _ hx))
    refine ⟨gp', by rw [happ, hgp'], fun name => ?_⟩
    rw [hfields name]
    have hrev : ((k, v) :: rest).reverse = rest.reverse ++ [(k, v)] := by
      simp
    rw [hrev, ovLookup_append]
    cases hl : ovLookup rest.reverse name with
    | some w => rfl
    | none =>
      rw [hfield1 name]
      show (if name = k then some v else getField gp name) = _
      by_cases hnk : name = k
      · rw [if_pos hnk]
        have hv : ovLookup [(k, v)] name = some v := by
          show (if k = name then some v else ovLookup [] name) = some v
          rw [if_pos hnk.symm]
        rw [hv]
      · rw [if_neg hnk]
        have hv : ovLookup [(k, v)] name = none := by
          show (if k = name then some v else ovLookup [] name) = none
          rw [if_neg (fun hh => hnk hh.symm)]
          rfl
        rw [hv]

theorem applyOverrides_unknown :
    ∀ (ov : List (String × PyVal)) (gp : GlobalParams),
      (∃ kv ∈ ov, kv.1 ∉ fieldNames) →
      ∃ k, applyOverrides gp ov = .error k ∧ k ∉ fieldNames ∧
        k ∈ ov.map Prod.fst := by
  intro ov
  induction ov with
  | nil =>
    intro gp h
    obtain ⟨kv, hmem, _⟩ := h
    simp at hmem
  | cons kv rest ih =>
    intro gp h
    obtain ⟨k, v⟩ := kv
    by_cases hk : k ∈ fieldNames
    · obtain ⟨gp1, hgp1, -⟩ := replaceOne_spec gp v hk
      have happ : applyOverrides gp ((k, v) :: rest) =
          applyOverrides gp1 rest := by
        show (match replaceOne gp k v with
              | some gp' => applyOverrides gp' rest
              | none => .error k) = _
        rw [hgp1]
      obtain ⟨kv', hmem, hbad⟩ := h
      rcases List.mem_cons.mp hmem with rfl | hmem'
      · exact absurd hk hbad
      · obtain ⟨kbad, hb1, hb2, hb3⟩ := ih gp1 ⟨kv', hmem', hbad⟩
        refine ⟨kbad, by rw [happ]; exact hb1, hb2, ?_⟩
        simp only [List.map_cons]
        exact List.mem_cons_of_mem _ hb3
    · refine ⟨k, ?_, hk, by simp⟩
      show (match replaceOne gp k v with
            | some gp' => applyOverrides gp' rest
            | none => .error k) = .error k
      rw [replaceOne_none hk]

/-! ## The claims -/

/-- C1 (amended): For every stage descriptor satisfying the invariants of
`ValidBlock` — positive integer fields, strides a pair of digits 0-9, and
`se_ratio` absent or a float in (0, 1] whose decimal expansion has at most
12 significant digits — decoding the encoding returns exactly the same
descriptor, with no field changed.  The claim as stated, over all floats in
(0, 1], is refuted by `C1_counterexample`: Python 2 `str` rounds the `se`
token to 12 significant digits, so ratios needing more digits drift. -/
theorem C1_decode_encode_roundtrip (d : BlockArgs) (hv : ValidBlock d) :
    decode_block_string (encode_block_string d) = .ok d :=
  decode_encode_roundtrip d hv

set_option maxRecDepth 16384 in
theorem C1_witness :
    ValidBlock ⟨3, 1, 32, 16, 1, true, some (mkRat 1 4), (2, 2)⟩ ∧
    decode_block_string
        (encode_block_string ⟨3, 1, 32, 16, 1, true, some (mkRat 1 4), (2, 2)⟩) =
      .ok ⟨3, 1, 32, 16, 1, true, some (mkRat 1 4), (2, 2)⟩ := by
  have hv : ValidBlock ⟨3, 1, 32, 16, 1, true, some (mkRat 1 4), (2, 2)⟩ :=
    ⟨by decide, by decide, by decide, by decide, by decide, by decide,
      by decide, by decide, by decide, ⟨25, 2, by decide, by decide, by decide⟩⟩
  exact ⟨hv, C1_decode_encode_roundtrip _ hv⟩

set_option maxRecDepth 16384 in
/-- C1 counterexample: the IEEE double nearest 1/3 is the rational
6004799503160661/2^54; it lies in (0, 1] and every other invariant of the
claim holds of the descriptor, yet Python 2 `str` prints its `se` token
rounded to 12 significant digits (`se0.333333333333`), so decoding the
encoding yields a drifted `se_ratio`, not the original descriptor. -/
theorem C1_counterexample :
    (0 : ℚ) < mkRat 6004799503160661 18014398509481984 ∧
    mkRat 6004799503160661 18014398509481984 ≤ 1 ∧
    decode_block_string (encode_block_string
        ⟨3, 1, 32, 16, 1, true,
          some (mkRat 6004799503160661 18014398509481984), (2, 2)⟩) ≠
      .ok ⟨3, 1, 32, 16, 1, true,
        some (mkRat 6004799503160661 18014398509481984), (2, 2)⟩ :=
  ⟨by decide, by decide, by decide⟩

/-- C2: Encoding emits the tokens joined by `_` in the fixed order
`r<num_repeat>`, `k<kernel_size>`, `s<stride0><stride1>`, `e<expand_ratio>`,
`i<input_filters>`, `o<output_filters>`; the `se<se_ratio>` token is
appended iff `se_ratio` is present and lies in (0, 1] (absent, zero, or
greater-than-one ratios yield no `se` token and no error); the literal
`noskip` is appended iff `id_skip` is false. -/
theorem C2_encode_structure (b : BlockArgs) :
    (encode_block_string b).toList =
      'r' :: natDigits b.num_repeat ++ '_' :: 'k' :: natDigits b.kernel_size ++
      '_' :: 's' :: (natDigits b.strides.1 ++ natDigits b.strides.2) ++
      '_' :: 'e' :: natDigits b.expand_ratio ++
      '_' :: 'i' :: natDigits b.input_filters ++
      '_' :: 'o' :: natDigits b.output_filters ++
      (match b.se_ratio with
       | some q => if 0 < q ∧ q ≤ 1 then '_' :: 's' :: 'e' :: pyStr q else []
       | none => []) ++
      (if b.id_skip = false then '_' :: noskipChars else []) := by
  have hj : (encode_block_string b).toList = joinWith '_' (encodeArgs b) := rfl
  rw [hj]
  unfold encodeArgs frontTokens seTokens skipTokens
  cases hq : b.se_ratio with
  | none => cases hsk : b.id_skip <;> simp [joinWith, List.append_assoc]
  | some q =>
    by_cases hc : 0 < q ∧ q ≤ 1
    · cases hsk : b.id_skip <;> simp [joinWith, hc, List.append_assoc]
    · cases hsk : b.id_skip <;> simp [joinWith, hc, List.append_assoc]

/-- C3: A descriptor string whose parsed key/value map lacks any of the
required keys `s`, `k`, `r`, `i`, `o`, `e` is rejected (never a descriptor
with a defaulted field), and on the concrete example missing `r` the error
is the `KeyError` naming `r`. -/
theorem C3_missing_required_key :
    (∀ (s : String) (key : List Char),
      key ∈ [['s'], ['k'], ['r'], ['i'], ['o'], ['e']] →
      lookupKV (optionsOf s) key = none →
      ∃ er, decode_block_string s = .error er) ∧
    decode_block_string "k3_s22_e1_i16_o24" = .error (.missingKey ['r']) := by
  constructor
  · intro s key hmem hnone
    cases hd : decode_block_string s with
    | error er => exact ⟨er, rfl⟩
    | ok d =>
      exfalso
      obtain ⟨hS, hK, hR, hI, hO, hE, -⟩ := decode_block_string_ok_inv hd
      fin_cases hmem
      · rw [hnone] at hS; simp at hS
      · rw [hnone] at hK; simp at hK
      · rw [hnone] at hR; simp at hR
      · rw [hnone] at hI; simp at hI
      · rw [hnone] at hO; simp at hO
      · rw [hnone] at hE; simp at hE
  · decide

theorem C3_witness : ∃ er, decode_block_string "k3_s22_e1_i16_o24" = .error er :=
  C3_missing_required_key.1 "k3_s22_e1_i16_o24" ['r'] (by decide) (by decide)

/-- C4: A descriptor string whose `s` value is not exactly two characters is
rejected with the `ValueError` citing that strides must be a pair of
integers. -/
theorem C4_strides_length (s : String) (sv : List Char)
    (hs : lookupKV (optionsOf s) ['s'] = some sv) (hlen : sv.length ≠ 2) :
    decode_block_string s = .error .stridesError := by
  unfold decode_block_string
  rw [hs]
  rcases sv with _ | ⟨c0, _ | ⟨c1, _ | ⟨c2, tl⟩⟩⟩
  · rfl
  · rfl
  · exact absurd rfl hlen
  · rfl

theorem C4_witness :
    lookupKV (optionsOf "r4_k3_s2_e1_i16_o24") ['s'] = some ['2'] ∧
    decode_block_string "r4_k3_s2_e1_i16_o24" = .error .stridesError :=
  ⟨by decide, C4_strides_length "r4_k3_s2_e1_i16_o24" ['2'] (by decide)
    (by decide)⟩

/-- C5: For every accepted descriptor string, the resulting `id_skip` field
is false iff the literal substring `noskip` occurs anywhere in the original
input string. -/
theorem C5_id_skip_iff (s : String) (d : BlockArgs)
    (h : decode_block_string s = .ok d) :
    d.id_skip = false ↔ hasSub s.toList "noskip".toList = true := by
  have hinv := (decode_block_string_ok_inv h).2.2.2.2.2.2
  rw [show ("noskip".toList : List Char) = noskipChars from rfl, hinv]
  simp

theorem C5_witness :
    decode_block_string "r1_k3_s11_e1_i32_o16_noskip" =
      .ok ⟨3, 1, 32, 16, 1, false, none, (1, 1)⟩ ∧
    ((⟨3, 1, 32, 16, 1, false, none, (1, 1)⟩ : BlockArgs).id_skip = false ↔
      hasSub "r1_k3_s11_e1_i32_o16_noskip".toList "noskip".toList = true) :=
  ⟨by decide, C5_id_skip_iff _ _ (by decide)⟩

/-- C6 (amended): Decoding the encoding of a sequence of descriptors valid
in the sense of `ValidBlock` (which restricts a present `se_ratio` to at
most 12 significant decimal digits; `C6_counterexample` shows the drift
outside that domain) returns the same sequence — same length, same order —
and decoding a list fails on the first malformed element with no partial
results. -/
theorem C6_order_preservation :
    (∀ seq : List BlockArgs, (∀ d ∈ seq, ValidBlock d) →
      decode (encode seq) = .ok seq) ∧
    (∀ (pre : List String) (bs : List BlockArgs) (s : String)
        (e : DecodeErr) (post : List String),
      decode pre = .ok bs → decode_block_string s = .error e →
      decode (pre ++ s :: post) = .error e) :=
  ⟨fun seq h => decode_encode_list seq h,
   fun pre bs s e post h1 h2 => decode_prefix_error pre bs h1 s e post h2⟩

theorem C6_witness :
    decode (encode [⟨3, 2, 16, 24, 1, true, none, (2, 2)⟩]) =
      .ok [⟨3, 2, 16, 24, 1, true, none, (2, 2)⟩] ∧
    decode (["r1_k3_s11_e1_i32_o16"] ++
        "k3_s22_e1_i16_o24" :: ["r4_k3_s22_e1_i16_o24"]) =
      .error (.missingKey ['r']) := by
  constructor
  · apply C6_order_preservation.1
    intro x hx
    rw [List.mem_singleton] at hx
    subst hx
    exact ⟨by decide, by decide, by decide, by decide, by decide, by decide,
      by decide, trivial⟩
  · exact C6_order_preservation.2 ["r1_k3_s11_e1_i32_o16"]
      [⟨3, 1, 32, 16, 1, true, none, (1, 1)⟩] "k3_s22_e1_i16_o24"
      (.missingKey ['r']) ["r4_k3_s22_e1_i16_o24"] (by decide) (by decide)

set_option maxRecDepth 16384 in
/-- C6 counterexample: a singleton sequence whose descriptor carries the
IEEE double nearest 1/3 as `se_ratio` (a float in (0, 1], all other
invariants holding) does not survive encode-then-decode: the `se` token is
rounded to 12 significant digits, so the decoded sequence differs. -/
theorem C6_counterexample :
    (0 : ℚ) < mkRat 6004799503160661 18014398509481984 ∧
    mkRat 6004799503160661 18014398509481984 ≤ 1 ∧
    decode (encode [⟨5, 2, 16, 24, 3, true,
        some (mkRat 6004799503160661 18014398509481984), (1, 1)⟩]) ≠
      .ok [⟨5, 2, 16, 24, 3, true,
        some (mkRat 6004799503160661 18014398509481984), (1, 1)⟩] :=
  ⟨by decide, by decide, by decide⟩

/-- C7: Applying an override mapping whose keys all name existing fields
succeeds with a fresh record whose overridden fields take the mapping's
values (last occurrence winning) and whose other fields equal the
corresponding fields of the base record; the base record, an immutable
value, is left unmodified. -/
theorem C7_apply_overrides (gp : GlobalParams) (ov : List (String × PyVal))
    (h : ∀ kv ∈ ov, kv.1 ∈ fieldNames) :
    ∃ gp', applyOverrides gp ov = .ok gp' ∧
      ∀ name, getField gp' name =
        match ovLookup ov.reverse name with
        | some v => some v
        | none => getField gp name :=
  applyOverrides_all_fields ov gp h

theorem C7_witness :
    (∀ kv ∈ [("dropout_rate", PyVal.pfloat (mkRat 1 2))], kv.1 ∈ fieldNames) ∧
    ∃ gp', applyOverrides (mnasnet_backbone 3 1).2
        [("dropout_rate", PyVal.pfloat (mkRat 1 2))] = .ok gp' ∧
      ∀ name, getField gp' name =
        match ovLookup
            ([("dropout_rate", PyVal.pfloat (mkRat 1 2))]).reverse name with
        | some v => some v
        | none => getField (mnasnet_backbone 3 1).2 name :=
  ⟨by decide, C7_apply_overrides _ _ (by decide)⟩

/-- C8: Applying an override mapping containing a key that names no field
of the record fails with the error identifying an offending key; nothing is
partially merged (the whole call returns the error, not a record). -/
theorem C8_invalid_override (gp : GlobalParams) (ov : List (String × PyVal))
    (h : ∃ kv ∈ ov, kv.1 ∉ fieldNames) :
    ∃ k, applyOverrides gp ov = .error k ∧ k ∉ fieldNames ∧
      k ∈ ov.map Prod.fst :=
  applyOverrides_unknown ov gp h

theorem C8_witness :
    (∃ kv ∈ [("nonexistent_field", PyVal.pint 1)], kv.1 ∉ fieldNames) ∧
    ∃ k, applyOverrides (mnasnet_backbone 3 1).2
        [("nonexistent_field", PyVal.pint 1)] = .error k ∧
      k ∉ fieldNames ∧
      k ∈ ([("nonexistent_field", PyVal.pint 1)]).map Prod.fst :=
  ⟨by decide, C8_invalid_override _ _ (by decide)⟩

/-- The configuration produced for the `mnasnet-backbone` preset with build
parameters `kernel="5"` and `expratio="3"`. -/
def backboneResult : Except BuildErr (List BlockArgs × GlobalParams) :=
  build_mnasnet_config "mnasnet-backbone"
    [("kernel", .pstr "5"), ("expratio", .pstr "3")]

set_option maxRecDepth 16384 in
/-- C9: Assembling the `mnasnet-backbone` preset with kernel "5" and
expratio "3" yields exactly 7 stage descriptors; the 2nd-6th have kernel
size 5 and expansion ratio 3, the 1st and 7th keep kernel size 3 and are
non-skippable, and the 7th has expansion ratio 6. -/
theorem C9_backbone_assembly :
    (blocksOf backboneResult).map List.length = some 7 ∧
    (stageAt backboneResult 1).map BlockArgs.kernel_size = some 5 ∧
    (stageAt backboneResult 2).map BlockArgs.kernel_size = some 5 ∧
    (stageAt backboneResult 3).map BlockArgs.kernel_size = some 5 ∧
    (stageAt backboneResult 4).map BlockArgs.kernel_size = some 5 ∧
    (stageAt backboneResult 5).map BlockArgs.kernel_size = some 5 ∧
    (stageAt backboneResult 1).map BlockArgs.expand_ratio = some 3 ∧
    (stageAt backboneResult 2).map BlockArgs.expand_ratio = some 3 ∧
    (stageAt backboneResult 3).map BlockArgs.expand_ratio = some 3 ∧
    (stageAt backboneResult 4).map BlockArgs.expand_ratio = some 3 ∧
    (stageAt backboneResult 5).map BlockArgs.expand_ratio = some 3 ∧
    (stageAt backboneResult 0).map BlockArgs.kernel_size = some 3 ∧
    (stageAt backboneResult 6).map BlockArgs.kernel_size = some 3 ∧
    (stageAt backboneResult 0).map BlockArgs.id_skip = some false ∧
    (stageAt backboneResult 6).map BlockArgs.id_skip = some false ∧
    (stageAt backboneResult 6).map BlockArgs.expand_ratio = some 6 := by
  decide

/-- C10: When the same key letter occurs in several tokens, decoding does
not fail: the options dictionary holds, for each key, the value of the last
token (in left-to-right order) carrying that key, and the duplicate-`r`
example decodes with the later value winning. -/
theorem C10_last_occurrence_wins :
    (∀ (ops : List (List Char)) (key : List Char),
      lookupKV (buildOptions ops) key =
        match lastSplitValue ops key with
        | some v => some v
        | none => none) ∧
    decode_block_string "r1_r2_k3_s11_e1_i16_o24" =
      .ok ⟨3, 2, 16, 24, 1, true, none, (1, 1)⟩ :=
  ⟨lookupKV_buildOptions, by decide⟩

end SPNas
